import Mathlib

namespace Mintle

/-!
Verification development for the hourly-word game core (mintle).

Strings are modelled as lists of UTF-16 code units (`List Nat`), matching
JavaScript `charCodeAt` semantics.  Pure functions of the source are
translated one-to-one; fallible operations (thrown exceptions) become
`Option`/`Except` results.  The remote document store is modelled as
explicit state with an atomic create-if-absent step.
-/

/-- Convert a Lean string literal to its list of code units, for stating
concrete examples. -/
def ofString (s : String) : List Nat :=
  s.data.map Char.toNat

/-- Model of `String.prototype.toLowerCase` restricted to the ASCII range (the only
range the claims exercise: alphabetic words and digit-built hour ids). -/
def toLowerCode (c : Nat) : Nat :=
  if 65 ≤ c ∧ c ≤ 90 then c + 32 else c

/-- Model of `String.prototype.toUpperCase` restricted to the ASCII range. -/
def toUpperCode (c : Nat) : Nat :=
  if 97 ≤ c ∧ c ≤ 122 then c - 32 else c

def toLowerStr (s : List Nat) : List Nat := s.map toLowerCode

def toUpperStr (s : List Nat) : List Nat := s.map toUpperCode

/-- An ASCII letter code (`A`–`Z` or `a`–`z`). -/
def isAsciiAlpha (c : Nat) : Prop := (65 ≤ c ∧ c ≤ 90) ∨ (97 ≤ c ∧ c ≤ 122)

instance (c : Nat) : Decidable (isAsciiAlpha c) := by
  unfold isAsciiAlpha; infer_instance

/-- A lowercase ASCII letter code. -/
def isLowerAlpha (c : Nat) : Prop := 97 ≤ c ∧ c ≤ 122

instance (c : Nat) : Decidable (isLowerAlpha c) := by
  unfold isLowerAlpha; infer_instance

/-! ## Obfuscation (src/src/lib/encryption.ts) -/

/-- Model of `generateEncryptionKey`: sum of the code units of the hour id, mod 26. -/
def generateEncryptionKey (hourId : List Nat) : Nat :=
  hourId.sum % 26

/-- One character of `caesarCipher`: shift letters inside their case band,
pass every other code unit through unchanged. -/
def caesarShiftChar (shift : Nat) (c : Nat) : Nat :=
  if 97 ≤ c ∧ c ≤ 122 then (c - 97 + shift) % 26 + 97
  else if 65 ≤ c ∧ c ≤ 90 then (c - 65 + shift) % 26 + 65
  else c

def caesarCipher (text : List Nat) (shift : Nat) : List Nat :=
  text.map (caesarShiftChar shift)

/-- Model of `caesarDecipher(text, shift) = caesarCipher(text, 26 - shift)`. -/
def caesarDecipher (text : List Nat) (shift : Nat) : List Nat :=
  caesarCipher text (26 - shift)

/-- Value of one base64 digit (0–63) as a code unit, per the standard
alphabet `A–Z a–z 0–9 + /` used by `btoa`. -/
def enc64 (v : Nat) : Nat :=
  if v < 26 then 65 + v
  else if v < 52 then 97 + (v - 26)
  else if v < 62 then 48 + (v - 52)
  else if v = 62 then 43
  else 47

/-- Inverse base64 digit table; `none` on a code unit outside the alphabet
(this is how `atob` rejects malformed payloads, including `=` in a
non-padding position). -/
def dec64 (c : Nat) : Option Nat :=
  if 65 ≤ c ∧ c ≤ 90 then some (c - 65)
  else if 97 ≤ c ∧ c ≤ 122 then some (26 + (c - 97))
  else if 48 ≤ c ∧ c ≤ 57 then some (52 + (c - 48))
  else if c = 43 then some 62
  else if c = 47 then some 63
  else none

/-- Body of `btoa`: encode byte triples into base64 quadruples, padding the
final partial group with `=` (code 61). -/
def btoaChunks : List Nat → List Nat
  | [] => []
  | [b0] => [enc64 (b0 / 4), enc64 (b0 % 4 * 16), 61, 61]
  | [b0, b1] => [enc64 (b0 / 4), enc64 (b0 % 4 * 16 + b1 / 16), enc64 (b1 % 16 * 4), 61]
  | b0 :: b1 :: b2 :: rest =>
      enc64 (b0 / 4) :: enc64 (b0 % 4 * 16 + b1 / 16) ::
      enc64 (b1 % 16 * 4 + b2 / 64) :: enc64 (b2 % 64) :: btoaChunks rest

/-- Model of `btoa`: defined on strings of code units below 256 (it throws an
`InvalidCharacterError` otherwise, modelled as `none`). -/
def btoa (bytes : List Nat) : Option (List Nat) :=
  if bytes.all (fun b => b < 256) then some (btoaChunks bytes) else none

/-- Body of `atob` on the padded base64 strings `btoa` emits: groups of four
digits, with `=` accepted only as final-group padding.  Inputs whose length
is not a multiple of four are rejected (`btoa` never produces them). -/
def atobChunks : List Nat → Option (List Nat)
  | [] => some []
  | c0 :: c1 :: c2 :: c3 :: rest =>
      match dec64 c0, dec64 c1 with
      | some v0, some v1 =>
          if c2 = 61 then
            if c3 = 61 ∧ rest = [] then some [v0 * 4 + v1 / 16] else none
          else
            match dec64 c2 with
            | some v2 =>
                if c3 = 61 then
                  if rest = [] then some [v0 * 4 + v1 / 16, v1 % 16 * 16 + v2 / 4]
                  else none
                else
                  match dec64 c3 with
                  | some v3 =>
                      (atobChunks rest).map
                        (fun bs => (v0 * 4 + v1 / 16) :: (v1 % 16 * 16 + v2 / 4) ::
                                   (v2 % 4 * 64 + v3) :: bs)
                  | none => none
            | none => none
      | _, _ => none
  | _ => none

def atob (s : List Nat) : Option (List Nat) := atobChunks s

/-- Model of `encryptWord`: lowercase, Caesar-shift by the hour key, then base64. -/
def encryptWord (word hourId : List Nat) : Option (List Nat) :=
  btoa (caesarCipher (toLowerStr word) (generateEncryptionKey hourId))

/-- Model of `decryptWord`: base64-decode then Caesar-decipher; the thrown decode
failure is modelled as `none`. -/
def decryptWord (encryptedWord hourId : List Nat) : Option (List Nat) :=
  (atob encryptedWord).map (fun decoded => caesarDecipher decoded (generateEncryptionKey hourId))

/-! ## Evaluator (evaluateGuess, src/src/App.tsx) -/

inductive LetterStatus
  | correct
  | present
  | absent
deriving DecidableEq

/-- One per-position feedback entry: the letter as typed plus its status. -/
structure LetterFeedback where
  letter : Nat
  status : LetterStatus
deriving DecidableEq

/-- The `Map.set(letter, count - 1)` steps on the remaining-count pool. -/
def decCount (counts : Nat → Nat) (c : Nat) : Nat → Nat :=
  fun x => if x = c then counts c - 1 else counts x

/-- First pass of `evaluateGuess`: walk the zipped lowercased words, mark
exact matches and consume them from the pool. -/
def pass1 : List (Nat × Nat) → (Nat → Nat) → List Bool × (Nat → Nat)
  | [], counts => ([], counts)
  | (g, s) :: rest, counts =>
      if g = s then
        let r := pass1 rest (decCount counts g)
        (true :: r.1, r.2)
      else
        let r := pass1 rest counts
        (false :: r.1, r.2)

/-- Second pass of `evaluateGuess`: positions not marked in pass one become
`present` while the pool still holds the letter, `absent` otherwise. -/
def pass2 : List (Bool × Nat) → (Nat → Nat) → List LetterStatus
  | [], _ => []
  | (marked, g) :: rest, counts =>
      if marked then LetterStatus.correct :: pass2 rest counts
      else if 0 < counts g then LetterStatus.present :: pass2 rest (decCount counts g)
      else LetterStatus.absent :: pass2 rest counts

/-- Model of `evaluateGuess`: the thrown length error ("Both guess and secret must be
exactly 5 letters") is modelled as `none`. -/
def evaluateGuess (guess secret : List Nat) : Option (List LetterFeedback) :=
  if guess.length ≠ 5 ∨ secret.length ≠ 5 then none
  else
    let guessLower := toLowerStr guess
    let secretLower := toLowerStr secret
    let r := pass1 (guessLower.zip secretLower) (fun c => secretLower.count c)
    let statuses := pass2 (r.1.zip guessLower) r.2
    some ((guess.zip statuses).map (fun p => ⟨p.1, p.2⟩))

/-- Model of `isCorrectGuess`: case-insensitive equality. -/
def isCorrectGuess (guess secret : List Nat) : Bool :=
  toLowerStr guess = toLowerStr secret

/-! ## TimeKeying (src/src/lib/timeUtils.ts)

JavaScript `Date` objects are their epoch-millisecond value; the UTC
calendar accessors are the ECMAScript time functions over that value, so
day, month, year and leap-day rollovers are inherited from epoch
arithmetic exactly as in the runtime. -/

/-- ECMAScript `Day(t) * msPerDay`: the UTC midnight at or before `t`. -/
def dayStart (t : Int) : Int := t - t % 86400000

/-- ECMAScript `HourFromTime(t)`, the value `getUTCHours()` returns. -/
def getUTCHoursOf (t : Int) : Int := t % 86400000 / 3600000

/-- Model of `d.setUTCHours(h, 0, 0, 0)`: rebuild the time from the day of `t` with
hour `h` and zeroed minutes, seconds and milliseconds; hour 24 rolls into
the next day via MakeDate, so boundary carries are automatic. -/
def setUTCHoursZeroed (t h : Int) : Int := dayStart t + h * 3600000

/-- Model of `millisecondsToNextHour`: copy the date, move it to the next hour
boundary, and subtract. -/
def millisecondsToNextHour (t : Int) : Int :=
  setUTCHoursZeroed t (getUTCHoursOf t + 1) - t

/-! ## Hint inference (suggestHintWord, src/src/lib/wordManager.ts)

The constraint accumulator mirrors the four mutable structures of the
source: `mustBe` (fixed letters per position), `mustInclude`,
`mustNotInclude` (sets, here lists read up to membership) and `cannotBe`
(per-position exclusion sets for positions 0–4). -/

structure HintConstraints where
  mustBe : List (Option Nat)
  mustInclude : List Nat
  mustNotInclude : List Nat
  cannotBe : List (List Nat)
deriving DecidableEq

def initialConstraints : HintConstraints :=
  ⟨List.replicate 5 none, [], [], List.replicate 5 []⟩

/-- The inner disambiguation scan of the `absent` branch: is the same
lowercased letter marked correct or present at another index of this row? -/
def foundElsewhere (row : List LetterFeedback) (i : Nat) (letter : Nat) : Bool :=
  row.enum.any (fun p =>
    decide (p.1 ≠ i ∧ toLowerCode p.2.letter = letter ∧ p.2.status ≠ LetterStatus.absent))

/-- One iteration of the constraint-building loop body, at index `i` of
`row` holding feedback `f`. -/
def processEntry (row : List LetterFeedback) (c : HintConstraints) (i : Nat)
    (f : LetterFeedback) : HintConstraints :=
  let letter := toLowerCode f.letter
  match f.status with
  | LetterStatus.correct => { c with mustBe := c.mustBe.set i (some letter) }
  | LetterStatus.present =>
      { c with mustInclude := letter :: c.mustInclude,
               cannotBe := c.cannotBe.set i (letter :: c.cannotBe.getD i []) }
  | LetterStatus.absent =>
      if foundElsewhere row i letter then
        { c with cannotBe := c.cannotBe.set i (letter :: c.cannotBe.getD i []) }
      else
        { c with mustNotInclude := letter :: c.mustNotInclude }

def processRow (c : HintConstraints) (row : List LetterFeedback) : HintConstraints :=
  row.enum.foldl (fun c p => processEntry row c p.1 p.2) c

def buildConstraints (feedback : List (List LetterFeedback)) : HintConstraints :=
  feedback.foldl processRow initialConstraints

/-- The per-position checks of the candidate filter.  `word[i]` on a word
shorter than 5 is `undefined` in the source: it never equals a required
letter and is never a member of an exclusion set. -/
def matchesPositional (c : HintConstraints) (word : List Nat) : Bool :=
  (List.range 5).all (fun i =>
    (match c.mustBe.getD i none, word[i]? with
     | some m, some wi => decide (wi = m)
     | some _, none => false
     | none, _ => true) &&
    (match word[i]? with
     | some wi => !(c.cannotBe.getD i []).contains wi
     | none => true))

/-- The whole filter predicate of `suggestHintWord`. -/
def isValidCandidate (c : HintConstraints) (guesses : List (List Nat))
    (word : List Nat) : Bool :=
  matchesPositional c word &&
  c.mustInclude.all (fun ch => word.contains ch) &&
  c.mustNotInclude.all (fun ch => !word.contains ch) &&
  !(guesses.contains word)

/-- Model of `suggestHintWord` over an explicit solutions list (the loaded
dictionary) and an explicit random draw: `pick % length` stands for
`Math.floor(Math.random() * length)`, which is always a valid index. -/
def suggestHintWord (solutions guesses : List (List Nat))
    (feedback : List (List LetterFeedback)) (pick : Nat) : Option (List Nat) :=
  let validWords := solutions.filter (isValidCandidate (buildConstraints feedback) guesses)
  if validWords.length = 0 then none
  else if validWords.length = 1 then validWords[0]?
  else validWords[pick % validWords.length]?

/-- Knowledge accumulated in the constraint builder is never lost: lengths
are stable, set membership only grows, filled `mustBe` slots stay filled. -/
def constraintsLE (c c' : HintConstraints) : Prop :=
  c.mustBe.length = c'.mustBe.length ∧
  c.cannotBe.length = c'.cannotBe.length ∧
  (∀ x ∈ c.mustNotInclude, x ∈ c'.mustNotInclude) ∧
  (∀ x ∈ c.mustInclude, x ∈ c'.mustInclude) ∧
  (∀ j x, x ∈ c.cannotBe.getD j [] → x ∈ c'.cannotBe.getD j []) ∧
  (∀ j, (c.mustBe.getD j none).isSome → (c'.mustBe.getD j none).isSome)

/-! ## Lexicon (src/src/lib/dictionary.ts)

The loaded dictionary's `solutions` set, iterated by `Array.from` in
insertion order, is the list of lowercased solution words; it is passed
explicitly (every client loads the same `words.json`). -/

/-- Model of `ToInt32`: wrap to the signed 32-bit range, as `hash & hash` does. -/
def toInt32 (n : Int) : Int := (n + 2 ^ 31) % 2 ^ 32 - 2 ^ 31

/-- One step of `simpleStringHash`: `hash = ((hash << 5) - hash) + char`
followed by `hash = hash & hash`; `<<` wraps its result to 32 bits. -/
def hashStep (hash : Int) (c : Nat) : Int :=
  toInt32 (toInt32 (hash * 32) - hash + c)

def simpleStringHash (s : List Nat) : Int := s.foldl hashStep 0

/-- Model of `getDeterministicSolutionWord`: non-cryptographic hash of the seed,
reduced modulo the solution count, uppercased.  An empty solution list
(index `NaN`, `undefined` element) is modelled as `none`. -/
def getDeterministicSolutionWord (solutions : List (List Nat)) (seed : List Nat) :
    Option (List Nat) :=
  (solutions[(simpleStringHash seed).natAbs % solutions.length]?).map toUpperStr

/-- One digit of `Number.prototype.toString(36)`: `0-9` then `a-z`. -/
def toBase36Digit (d : Nat) : Nat := if d < 10 then 48 + d else 97 + (d - 10)

def toBase36Aux : Nat → List Nat → List Nat
  | 0, acc => acc
  | n + 1, acc => toBase36Aux ((n + 1) / 36) (toBase36Digit ((n + 1) % 36) :: acc)
decreasing_by exact Nat.div_lt_self (Nat.succ_pos n) (by norm_num)

def toStringBase36 (n : Nat) : List Nat :=
  if n = 0 then [48] else toBase36Aux n []

/-- Model of `generateWordHash`: the 32-bit rolling hash of
`word.toLowerCase() + hourId`, absolute value, in base 36. -/
def generateWordHash (word hourId : List Nat) : List Nat :=
  toStringBase36 (simpleStringHash (toLowerStr word ++ hourId)).natAbs

/-! ## WordLifecycle (getOrCreateHourlyWord, src/src/lib/wordManager.ts)

The DocumentStore is explicit state (`Option WordDocument` for the fixed
bucket) with an atomic create-if-absent step; a client run is a function
of the responses its store operations observed, and a multi-client
execution is a consistent interleaved trace of all clients' operations. -/

structure WordDocument where
  word : List Nat
  createdAt : List Nat
  source : List Nat
  dictionaryVersion : List Nat
  hash : Option (List Nat)
deriving DecidableEq

/-- One atomic store operation on the bucket, with the response the
issuing client observed. -/
inductive StoreOp
  | get (resp : Option WordDocument)
  | create (doc : WordDocument) (resp : Bool)
deriving DecidableEq

/-- Create-if-absent semantics: a trace is consistent from a state when
every response matches the state at its point, and `create` succeeds
exactly on an absent record, never overwriting. -/
def consistentFrom : Option WordDocument → List StoreOp → Bool
  | s, [] => (fun _ => true) s
  | s, StoreOp.get r :: tr => decide (r = s) && consistentFrom s tr
  | none, StoreOp.create d r :: tr => decide (r = true) && consistentFrom (some d) tr
  | some d0, StoreOp.create _ r :: tr => decide (r = false) && consistentFrom (some d0) tr

/-- The store state reached after a trace. -/
def execStore : Option WordDocument → List StoreOp → Option WordDocument
  | s, [] => s
  | s, StoreOp.get _ :: tr => execStore s tr
  | none, StoreOp.create d _ :: tr => execStore (some d) tr
  | some d0, StoreOp.create _ _ :: tr => execStore (some d0) tr

/-- Observable outcomes of `createWordDocument`: resolved `true`, resolved
`false` (the underlying already-exists conflict), or a thrown
`FirestoreServiceError` carrying a code. -/
inductive CreateResult
  | created
  | conflictFalse
  | threw (code : List Nat)
deriving DecidableEq

/-- The responses one client's store interactions produced: the first
lookup, the create attempt, whether a throwing create nonetheless
persisted the record, and the two fallback reads. -/
structure StoreOracle where
  r1 : Option WordDocument
  rc : CreateResult
  rcWrote : Bool
  r2 : Option WordDocument
  r3 : Option WordDocument
deriving DecidableEq

inductive LifecycleResult
  | ok (word : List Nat)
  | decryptError
  | dictionaryEmpty
  | encodeError
  | storeError (code : List Nat)
  | lifecycleError
deriving DecidableEq

/-- Shared read path: decrypt the stored payload and uppercase it. -/
def decryptUpper (payload hourId : List Nat) : LifecycleResult :=
  match decryptWord payload hourId with
  | some w => LifecycleResult.ok (toUpperStr w)
  | none => LifecycleResult.decryptError

/-- The WordDocument the creator path persists. -/
def creatorDoc (word hourId now : List Nat) : Option WordDocument :=
  (encryptWord word hourId).map (fun enc =>
    ⟨enc, now, ofString "client", ofString "v1", some (generateWordHash word hourId)⟩)

/-- Model of `getOrCreateHourlyWord` for a bucket, as a function of the store
responses: read, else derive/encrypt/create; a thrown `already-exists`
triggers a re-read, any other thrown code is rethrown at once, and a
`false` create result falls through to the final defensive read. -/
def getOrCreateHourlyWord (solutions : List (List Nat)) (hourId now : List Nat)
    (o : StoreOracle) :
    LifecycleResult :=
  match o.r1 with
  | some doc => decryptUpper doc.word hourId
  | none =>
    match getDeterministicSolutionWord solutions hourId with
    | none => LifecycleResult.dictionaryEmpty
    | some word =>
      match creatorDoc word hourId now with
      | none => LifecycleResult.encodeError
      | some _ =>
        match o.rc with
        | CreateResult.created => LifecycleResult.ok word
        | CreateResult.threw code =>
            if code = ofString "already-exists" then
              match o.r2 with
              | some doc => decryptUpper doc.word hourId
              | none => LifecycleResult.storeError code
            else LifecycleResult.storeError code
        | CreateResult.conflictFalse =>
            match o.r3 with
            | some doc => decryptUpper doc.word hourId
            | none => LifecycleResult.lifecycleError

/-- The store operations the same run issues, with their responses; a
throwing create is still a create step whose effect on the store is
`rcWrote`. -/
def clientOps (solutions : List (List Nat)) (hourId now : List Nat)
    (o : StoreOracle) : List StoreOp :=
  match o.r1 with
  | some doc => [StoreOp.get (some doc)]
  | none =>
    match getDeterministicSolutionWord solutions hourId with
    | none => [StoreOp.get none]
    | some word =>
      match creatorDoc word hourId now with
      | none => [StoreOp.get none]
      | some doc =>
        match o.rc with
        | CreateResult.created => [StoreOp.get none, StoreOp.create doc true]
        | CreateResult.conflictFalse =>
            [StoreOp.get none, StoreOp.create doc false, StoreOp.get o.r3]
        | CreateResult.threw code =>
            if code = ofString "already-exists" then
              [StoreOp.get none, StoreOp.create doc o.rcWrote, StoreOp.get o.r2]
            else
              [StoreOp.get none, StoreOp.create doc o.rcWrote]

/-- A document holding the canonical ciphertext for the bucket. -/
def canonicalDoc (solutions : List (List Nat)) (hourId : List Nat)
    (d : WordDocument) : Prop :=
  ∃ w, getDeterministicSolutionWord solutions hourId = some w ∧
    encryptWord w hourId = some d.word

/-! ## Record validation (validateWordDocument, src/src/lib/wordManager.ts) -/

def isDigitCode (c : Nat) : Bool := decide (48 ≤ c ∧ c ≤ 57)

/-- Modelled from the spec: JS `new Date(string)` validity (`!isNaN`) is
not in src; §6 requires `createdAt` to be an ISO-8601 timestamp that "must
parse", so parsing is modelled on the `YYYY-MM-DDTHH:mm:ss.sssZ` profile
`new Date().toISOString()` emits. -/
def jsDateParses (s : List Nat) : Bool :=
  decide (s.length = 24) &&
  (List.range 24).all (fun i =>
    match i, s[i]? with
    | 4, some c => decide (c = 45)
    | 7, some c => decide (c = 45)
    | 10, some c => decide (c = 84)
    | 13, some c => decide (c = 58)
    | 16, some c => decide (c = 58)
    | 19, some c => decide (c = 46)
    | 23, some c => decide (c = 90)
    | _, some c => isDigitCode c
    | _, none => false)

def isBase64Code (c : Nat) : Bool :=
  decide ((65 ≤ c ∧ c ≤ 90) ∨ (97 ≤ c ∧ c ≤ 122) ∨ (48 ≤ c ∧ c ≤ 57) ∨ c = 43 ∨ c = 47)

/-- Scanner for the validation regex `^[A-Za-z0-9+/]+=*$` after its first
character: more alphabet characters, then an optional all-`=` tail. -/
def b64Tail : List Nat → Bool
  | [] => true
  | c :: rest =>
      if isBase64Code c then b64Tail rest
      else (c :: rest).all (fun x => decide (x = 61))

def matchesBase64Pattern : List Nat → Bool
  | [] => false
  | c :: rest => isBase64Code c && b64Tail rest

/-- Model of `validateWordDocument`: the `typeof` checks hold by typing, the `!doc.x`
checks reject exactly empty strings, the payload must match the Base64
pattern, the timestamp must parse, and a present `hash` is a string by
typing. -/
def validateWordDocument (doc : WordDocument) : Bool :=
  !doc.word.isEmpty && !doc.createdAt.isEmpty && !doc.source.isEmpty &&
  !doc.dictionaryVersion.isEmpty &&
  matchesBase64Pattern doc.word &&
  jsDateParses doc.createdAt


/-! ## Theorems -/

/-! ### Round-trip lemmas -/

theorem dec64_enc64_all : ∀ v < 64, dec64 (enc64 v) = some v := by
  decide

theorem dec64_enc64 {v : Nat} (h : v < 64) : dec64 (enc64 v) = some v :=
  dec64_enc64_all v h

theorem enc64_ne_61 (v : Nat) : enc64 v ≠ 61 := by
  unfold enc64
  split_ifs <;> omega

theorem atob_btoa (bs : List Nat) (h : ∀ b ∈ bs, b < 256) :
    atobChunks (btoaChunks bs) = some bs := by
  induction bs using btoaChunks.induct with
  | case1 => rfl
  | case2 b0 =>
      have hb0 : b0 < 256 := h b0 (by simp)
      have h0 : b0 / 4 < 64 := by omega
      have h1 : b0 % 4 * 16 < 64 := by omega
      simp [btoaChunks, atobChunks, dec64_enc64 h0, dec64_enc64 h1, enc64_ne_61]
      omega
  | case3 b0 b1 =>
      have hb0 : b0 < 256 := h b0 (by simp)
      have hb1 : b1 < 256 := h b1 (by simp)
      have h0 : b0 / 4 < 64 := by omega
      have h1 : b0 % 4 * 16 + b1 / 16 < 64 := by omega
      have h2 : b1 % 16 * 4 < 64 := by omega
      simp [btoaChunks, atobChunks, dec64_enc64 h0, dec64_enc64 h1, dec64_enc64 h2,
        enc64_ne_61]
      omega
  | case4 b0 b1 b2 rest ih =>
      have hb0 : b0 < 256 := h b0 (by simp)
      have hb1 : b1 < 256 := h b1 (by simp)
      have hb2 : b2 < 256 := h b2 (by simp)
      have hrest : ∀ b ∈ rest, b < 256 := fun b hb => h b (by simp [hb])
      have h0 : b0 / 4 < 64 := by omega
      have h1 : b0 % 4 * 16 + b1 / 16 < 64 := by omega
      have h2 : b1 % 16 * 4 + b2 / 64 < 64 := by omega
      have h3 : b2 % 64 < 64 := by omega
      simp [btoaChunks, atobChunks, dec64_enc64 h0, dec64_enc64 h1, dec64_enc64 h2,
        dec64_enc64 h3, enc64_ne_61, ih hrest]
      omega

theorem caesarShiftChar_inv (shift c : Nat) (h : shift < 26) :
    caesarShiftChar (26 - shift) (caesarShiftChar shift c) = c := by
  unfold caesarShiftChar
  split_ifs <;> omega

theorem caesarDecipher_caesarCipher (text : List Nat) (shift : Nat) (h : shift < 26) :
    caesarDecipher (caesarCipher text shift) shift = text := by
  unfold caesarDecipher caesarCipher
  rw [List.map_map]
  have : (caesarShiftChar (26 - shift) ∘ caesarShiftChar shift) = id := by
    funext c
    exact caesarShiftChar_inv shift c h
  rw [this, List.map_id]

theorem caesarShiftChar_lt_256 (shift c : Nat) (h : c < 256) :
    caesarShiftChar shift c < 256 := by
  unfold caesarShiftChar
  split_ifs <;> omega

/-! ### Evaluator lemmas -/

theorem pass1_marks (l : List (Nat × Nat)) (counts : Nat → Nat) :
    (pass1 l counts).1 = l.map (fun p => decide (p.1 = p.2)) := by
  induction l generalizing counts with
  | nil => rfl
  | cons p rest ih =>
      obtain ⟨g, s⟩ := p
      by_cases hgs : g = s <;> simp [pass1, hgs, ih]

theorem pass2_length (l : List (Bool × Nat)) (counts : Nat → Nat) :
    (pass2 l counts).length = l.length := by
  induction l generalizing counts with
  | nil => rfl
  | cons p rest ih =>
      obtain ⟨marked, g⟩ := p
      by_cases hm : marked = true
      · simp [pass2, hm, ih]
      · by_cases hc : 0 < counts g <;>
          simp [pass2, hm, hc, ih]

theorem pass2_count_correct (l : List (Bool × Nat)) (counts : Nat → Nat) :
    (pass2 l counts).count LetterStatus.correct = (l.map Prod.fst).count true := by
  induction l generalizing counts with
  | nil => rfl
  | cons p rest ih =>
      obtain ⟨marked, g⟩ := p
      by_cases hm : marked = true
      · simp [pass2, hm, List.count_cons, ih]
      · by_cases hc : 0 < counts g <;>
          simp [pass2, hm, hc, List.count_cons, ih]

theorem pass2_all_correct (l : List (Bool × Nat)) (counts : Nat → Nat)
    (h : ∀ p ∈ l, p.1 = true) :
    ∀ st ∈ pass2 l counts, st = LetterStatus.correct := by
  induction l generalizing counts with
  | nil => intro st hst; simp [pass2] at hst
  | cons p rest ih =>
      obtain ⟨marked, g⟩ := p
      have hm : marked = true := h (marked, g) (by simp)
      intro st hst
      rw [pass2] at hst
      simp only [hm, if_true] at hst
      rcases List.mem_cons.mp hst with h1 | h1
      · exact h1
      · exact ih _ (fun q hq => h q (List.mem_cons_of_mem _ hq)) st h1

theorem count_true_map {α : Type} (l : List α) (f : α → Bool) :
    (l.map f).count true = l.countP f := by
  induction l with
  | nil => rfl
  | cons a rest ih =>
      by_cases hf : f a = true <;>
        simp [List.count_cons, List.countP_cons, hf, ih]

theorem zip_self_eq {α : Type} (l : List α) : ∀ p ∈ l.zip l, p.1 = p.2 := by
  induction l with
  | nil => intro p hp; simp at hp
  | cons a rest ih =>
      intro p hp
      rcases List.mem_cons.mp hp with h | h
      · rw [h]
      · exact ih p h

/-- C2: the two-pass duplicate-aware scorer returns exactly the spec's
feedback vectors on the duplicate-letter examples `SPEED` vs `ERASE` and
`ALLEY` vs `LLAMA`. -/
theorem evaluateGuess_duplicate_vectors :
    (evaluateGuess (ofString "SPEED") (ofString "ERASE")).map
        (fun fb => fb.map LetterFeedback.status) =
      some [LetterStatus.present, LetterStatus.absent, LetterStatus.present,
            LetterStatus.present, LetterStatus.absent] ∧
    (evaluateGuess (ofString "ALLEY") (ofString "LLAMA")).map
        (fun fb => fb.map LetterFeedback.status) =
      some [LetterStatus.present, LetterStatus.correct, LetterStatus.present,
            LetterStatus.absent, LetterStatus.absent] := by
  constructor <;> rfl

/-- C4: `evaluateGuess` reports the input error exactly on non-5-length
inputs; on 5-letter inputs it returns exactly five entries, its `correct`
count never exceeds the count of case-insensitively matching positions, and
case-insensitive equality forces all five entries `correct`. -/
theorem evaluateGuess_contract (g s : List Nat) :
    (evaluateGuess g s = none ↔ g.length ≠ 5 ∨ s.length ≠ 5) ∧
    ∀ fb, evaluateGuess g s = some fb →
      fb.length = 5 ∧
      (fb.map LetterFeedback.status).count LetterStatus.correct ≤
        ((toLowerStr g).zip (toLowerStr s)).countP (fun p => decide (p.1 = p.2)) ∧
      (toLowerStr g = toLowerStr s → ∀ f ∈ fb, f.status = LetterStatus.correct) := by
  by_cases hcond : g.length ≠ 5 ∨ s.length ≠ 5
  · constructor
    · simp [evaluateGuess, hcond]
    · intro fb hfb
      simp [evaluateGuess, hcond] at hfb
  · push_neg at hcond
    obtain ⟨hg, hs⟩ := hcond
    have hne : ¬(g.length ≠ 5 ∨ s.length ≠ 5) := by omega
    constructor
    · simp [evaluateGuess, hne]
    · intro fb hfb
      rw [evaluateGuess, if_neg hne] at hfb
      simp only [Option.some.injEq] at hfb
      have hgl : (toLowerStr g).length = 5 := by simp [toLowerStr, hg]
      have hsl : (toLowerStr s).length = 5 := by simp [toLowerStr, hs]
      set gl := toLowerStr g with hgldef
      set sl := toLowerStr s with hsldef
      set r := pass1 (gl.zip sl) (fun c => sl.count c) with hrdef
      set statuses := pass2 (r.1.zip gl) r.2 with hstdef
      have hmarks : r.1 = (gl.zip sl).map (fun p => decide (p.1 = p.2)) := by
        rw [hrdef]; exact pass1_marks _ _
      have hmlen : r.1.length = 5 := by
        rw [hmarks, List.length_map, List.length_zip, hgl, hsl]; decide
      have hstlen : statuses.length = 5 := by
        rw [hstdef, pass2_length, List.length_zip, hmlen, hgl]; decide
      have hfblen : fb.length = 5 := by
        rw [← hfb, List.length_map, List.length_zip, hg, hstlen]; decide
      have hfbstat : fb.map LetterFeedback.status = statuses := by
        rw [← hfb, List.map_map]
        have : (LetterFeedback.status ∘ fun p : Nat × LetterStatus => ⟨p.1, p.2⟩) =
            Prod.snd := rfl
        rw [this]
        exact List.map_snd_zip _ _ (by omega)
      refine ⟨hfblen, ?_, ?_⟩
      · rw [hfbstat, hstdef, pass2_count_correct]
        have hfst : (r.1.zip gl).map Prod.fst = r.1 :=
          List.map_fst_zip _ _ (by omega)
        rw [hfst, hmarks, count_true_map]
      · intro heq f hf
        have hall : ∀ p ∈ r.1.zip gl, p.1 = true := by
          intro p hp
          have hp1 : p.1 ∈ r.1 := (List.of_mem_zip hp).1
          rw [hmarks] at hp1
          obtain ⟨q, hq, hq2⟩ := List.mem_map.mp hp1
          rw [← heq] at hq
          have : q.1 = q.2 := zip_self_eq gl q hq
          rw [← hq2, this]
          simp
        have hstcor : ∀ st ∈ statuses, st = LetterStatus.correct :=
          pass2_all_correct _ _ hall
        rw [← hfb] at hf
        obtain ⟨p, hp, hp2⟩ := List.mem_map.mp hf
        have : p.2 ∈ statuses := (List.of_mem_zip hp).2
        rw [← hp2]
        exact hstcor _ this

/-- Witness for C4 at the concrete pair `SPEED`/`SPEED`. -/
theorem evaluateGuess_contract_witness :
    ∃ fb, evaluateGuess (ofString "SPEED") (ofString "SPEED") = some fb ∧
      fb.length = 5 ∧ ∀ f ∈ fb, f.status = LetterStatus.correct := by
  refine ⟨(evaluateGuess (ofString "SPEED") (ofString "SPEED")).getD [], by rfl, ?_, ?_⟩
  · exact ((evaluateGuess_contract (ofString "SPEED") (ofString "SPEED")).2 _ (by rfl)).1
  · exact ((evaluateGuess_contract (ofString "SPEED") (ofString "SPEED")).2 _ (by rfl)).2.2
      (by rfl)

/-- C3: for alphabetic words, decoding the encoded payload recovers the
lowercased word, for every hour id. -/
theorem encryptWord_decryptWord (word hourId : List Nat)
    (h : ∀ c ∈ word, isAsciiAlpha c) :
    ∃ payload, encryptWord word hourId = some payload ∧
      decryptWord payload hourId = some (toLowerStr word) := by
  set k := generateEncryptionKey hourId with hk
  have hklt : k < 26 := Nat.mod_lt _ (by norm_num)
  have hbytes : ∀ c ∈ caesarCipher (toLowerStr word) k, c < 256 := by
    intro c hc
    obtain ⟨a, ha, rfl⟩ := List.mem_map.mp hc
    apply caesarShiftChar_lt_256
    obtain ⟨b, hb, rfl⟩ := List.mem_map.mp ha
    have hb2 := h b hb
    unfold isAsciiAlpha at hb2
    unfold toLowerCode
    split_ifs <;> omega
  refine ⟨btoaChunks (caesarCipher (toLowerStr word) k), ?_, ?_⟩
  · unfold encryptWord btoa
    rw [← hk, if_pos]
    rw [List.all_eq_true]
    intro b hb
    exact decide_eq_true (hbytes b hb)
  · unfold decryptWord atob
    rw [atob_btoa _ hbytes]
    simp only [Option.map_some']
    rw [← hk, caesarDecipher_caesarCipher _ _ hklt]

/-- Witness for C3 at `APPLE` and hour id `2024010100`. -/
theorem encryptWord_decryptWord_witness :
    (∀ c ∈ ofString "APPLE", isAsciiAlpha c) ∧
    ∃ payload, encryptWord (ofString "APPLE") (ofString "2024010100") = some payload ∧
      decryptWord payload (ofString "2024010100") =
        some (toLowerStr (ofString "APPLE")) :=
  ⟨by decide, encryptWord_decryptWord _ _ (by decide)⟩

/-- C8: the countdown is strictly positive, at most one hour, the full hour
exactly on a boundary, and 1 exactly one millisecond before a boundary;
calendar rollovers are handled since the boundary is computed by epoch
arithmetic. -/
theorem millisecondsToNextHour_spec (t : Int) :
    0 < millisecondsToNextHour t ∧ millisecondsToNextHour t ≤ 3600000 ∧
    (t % 3600000 = 0 → millisecondsToNextHour t = 3600000) ∧
    (t % 3600000 = 3599999 → millisecondsToNextHour t = 1) := by
  have h1 : t % 86400000 % 3600000 = t % 3600000 :=
    Int.emod_emod_of_dvd t ⟨24, by norm_num⟩
  have h2 : 3600000 * (t % 86400000 / 3600000) + t % 86400000 % 3600000 =
      t % 86400000 := Int.ediv_add_emod _ _
  unfold millisecondsToNextHour setUTCHoursZeroed getUTCHoursOf dayStart
  omega

/-- Witness for C8 at an exact boundary and one millisecond before one. -/
theorem millisecondsToNextHour_witness :
    millisecondsToNextHour 7200000 = 3600000 ∧ millisecondsToNextHour 3599999 = 1 :=
  ⟨(millisecondsToNextHour_spec 7200000).2.2.1 (by decide),
   (millisecondsToNextHour_spec 3599999).2.2.2 (by decide)⟩

/-! ### Constraint-accumulation lemmas -/

theorem getD_set_self {α : Type} (l : List α) (i : Nat) (a d : α) (h : i < l.length) :
    (l.set i a).getD i d = a := by
  simp [List.getD_eq_getElem?_getD, List.getElem?_set_self h]

theorem getD_set_ne {α : Type} (l : List α) {i j : Nat} (a d : α) (h : i ≠ j) :
    (l.set i a).getD j d = l.getD j d := by
  simp [List.getD_eq_getElem?_getD, List.getElem?_set_ne h]

theorem constraintsLE_refl (c : HintConstraints) : constraintsLE c c :=
  ⟨rfl, rfl, fun _ h => h, fun _ h => h, fun _ _ h => h, fun _ h => h⟩

theorem constraintsLE_trans {a b c : HintConstraints}
    (h1 : constraintsLE a b) (h2 : constraintsLE b c) : constraintsLE a c :=
  ⟨h1.1.trans h2.1, h1.2.1.trans h2.2.1,
   fun x hx => h2.2.2.1 x (h1.2.2.1 x hx),
   fun x hx => h2.2.2.2.1 x (h1.2.2.2.1 x hx),
   fun j x hx => h2.2.2.2.2.1 j x (h1.2.2.2.2.1 j x hx),
   fun j hj => h2.2.2.2.2.2 j (h1.2.2.2.2.2 j hj)⟩

theorem mem_getD_set_cons {α : Type} (l : List (List α)) (i j : Nat) (a x : α)
    (h : x ∈ l.getD j []) : x ∈ (l.set i (a :: l.getD i [])).getD j [] := by
  by_cases hij : i = j
  · subst hij
    by_cases hlen : i < l.length
    · rw [getD_set_self _ _ _ _ hlen]
      exact List.mem_cons_of_mem _ h
    · rw [List.set_eq_of_length_le (by omega)]
      exact h
  · rw [getD_set_ne _ _ _ hij]
    exact h

theorem isSome_getD_set (l : List (Option Nat)) (i j : Nat) (a : Nat)
    (h : (l.getD j none).isSome) : ((l.set i (some a)).getD j none).isSome := by
  by_cases hij : i = j
  · subst hij
    by_cases hlen : i < l.length
    · rw [getD_set_self _ _ _ _ hlen]; rfl
    · rw [List.set_eq_of_length_le (by omega)]; exact h
  · rw [getD_set_ne _ _ _ hij]; exact h

theorem processEntry_correct_def (row : List LetterFeedback) (c : HintConstraints)
    (i : Nat) (f : LetterFeedback) (hf : f.status = LetterStatus.correct) :
    processEntry row c i f =
      { c with mustBe := c.mustBe.set i (some (toLowerCode f.letter)) } := by
  simp [processEntry, hf]

theorem processEntry_present_def (row : List LetterFeedback) (c : HintConstraints)
    (i : Nat) (f : LetterFeedback) (hf : f.status = LetterStatus.present) :
    processEntry row c i f =
      { c with mustInclude := toLowerCode f.letter :: c.mustInclude,
               cannotBe := c.cannotBe.set i
                 (toLowerCode f.letter :: c.cannotBe.getD i []) } := by
  simp [processEntry, hf]

theorem processEntry_absentElsewhere_def (row : List LetterFeedback)
    (c : HintConstraints) (i : Nat) (f : LetterFeedback)
    (hf : f.status = LetterStatus.absent)
    (hfe : foundElsewhere row i (toLowerCode f.letter) = true) :
    processEntry row c i f =
      { c with cannotBe := c.cannotBe.set i
                 (toLowerCode f.letter :: c.cannotBe.getD i []) } := by
  simp [processEntry, hf, hfe]

theorem processEntry_absentGlobal_def (row : List LetterFeedback)
    (c : HintConstraints) (i : Nat) (f : LetterFeedback)
    (hf : f.status = LetterStatus.absent)
    (hfe : foundElsewhere row i (toLowerCode f.letter) = false) :
    processEntry row c i f =
      { c with mustNotInclude := toLowerCode f.letter :: c.mustNotInclude } := by
  simp [processEntry, hf, hfe]

theorem processEntry_le (row : List LetterFeedback) (c : HintConstraints) (i : Nat)
    (f : LetterFeedback) : constraintsLE c (processEntry row c i f) := by
  cases hf : f.status with
  | correct =>
      rw [processEntry_correct_def row c i f hf]
      exact ⟨by simp, rfl, fun x h => h, fun x h => h, fun j x h => h,
             fun j hj => isSome_getD_set _ _ _ _ hj⟩
  | present =>
      rw [processEntry_present_def row c i f hf]
      exact ⟨rfl, by simp, fun x h => h, fun x h => List.mem_cons_of_mem _ h,
             fun j x h => mem_getD_set_cons _ _ _ _ _ h, fun j h => h⟩
  | absent =>
      by_cases hfe : foundElsewhere row i (toLowerCode f.letter) = true
      · rw [processEntry_absentElsewhere_def row c i f hf hfe]
        exact ⟨rfl, by simp, fun x h => h, fun x h => h,
               fun j x h => mem_getD_set_cons _ _ _ _ _ h, fun j h => h⟩
      · rw [processEntry_absentGlobal_def row c i f hf (by simpa using hfe)]
        exact ⟨rfl, rfl, fun x h => List.mem_cons_of_mem _ h, fun x h => h,
               fun j x h => h, fun j h => h⟩

theorem entryFold_le (row : List LetterFeedback) (l : List (Nat × LetterFeedback)) :
    ∀ c, constraintsLE c (l.foldl (fun c q => processEntry row c q.1 q.2) c) := by
  induction l with
  | nil => intro c; exact constraintsLE_refl c
  | cons q rest ih =>
      intro c
      rw [List.foldl_cons]
      exact constraintsLE_trans (processEntry_le row c q.1 q.2) (ih _)

theorem processRow_le (c : HintConstraints) (row : List LetterFeedback) :
    constraintsLE c (processRow c row) :=
  entryFold_le row row.enum c

theorem rowsFold_le (rows : List (List LetterFeedback)) :
    ∀ c, constraintsLE c (rows.foldl processRow c) := by
  induction rows with
  | nil => intro c; exact constraintsLE_refl c
  | cons row rest ih =>
      intro c
      rw [List.foldl_cons]
      exact constraintsLE_trans (processRow_le c row) (ih _)

theorem buildConstraints_le (fb : List (List LetterFeedback)) :
    constraintsLE initialConstraints (buildConstraints fb) :=
  rowsFold_le fb initialConstraints

theorem buildConstraints_mustBe_length (fb : List (List LetterFeedback)) :
    (buildConstraints fb).mustBe.length = 5 := by
  have h := (buildConstraints_le fb).1
  simp only [initialConstraints, List.length_replicate] at h
  exact h.symm

theorem buildConstraints_cannotBe_length (fb : List (List LetterFeedback)) :
    (buildConstraints fb).cannotBe.length = 5 := by
  have h := (buildConstraints_le fb).2.1
  simp only [initialConstraints, List.length_replicate] at h
  exact h.symm

theorem entryFold_of_mem (row : List LetterFeedback) (n m : Nat)
    (P : HintConstraints → Prop)
    (hmono : ∀ a b, constraintsLE a b → P a → P b)
    (p : Nat × LetterFeedback)
    (hstep : ∀ c, c.mustBe.length = n → c.cannotBe.length = m →
      P (processEntry row c p.1 p.2)) :
    ∀ (l : List (Nat × LetterFeedback)) (c : HintConstraints), p ∈ l →
      c.mustBe.length = n → c.cannotBe.length = m →
      P (l.foldl (fun c q => processEntry row c q.1 q.2) c) := by
  intro l
  induction l with
  | nil => intro c hp; exact absurd hp (List.not_mem_nil p)
  | cons q rest ih =>
      intro c hp hn hm
      rw [List.foldl_cons]
      rcases List.mem_cons.mp hp with heq | hmem
      · subst heq
        exact hmono _ _ (entryFold_le row rest _) (hstep c hn hm)
      · have hle := processEntry_le row c q.1 q.2
        exact ih _ hmem (hle.1 ▸ hn) (hle.2.1 ▸ hm)

theorem rowsFold_of_mem (n m : Nat) (P : HintConstraints → Prop)
    (hmono : ∀ a b, constraintsLE a b → P a → P b)
    (row : List LetterFeedback)
    (hstep : ∀ c, c.mustBe.length = n → c.cannotBe.length = m →
      P (processRow c row)) :
    ∀ (rows : List (List LetterFeedback)) (c : HintConstraints), row ∈ rows →
      c.mustBe.length = n → c.cannotBe.length = m →
      P (rows.foldl processRow c) := by
  intro rows
  induction rows with
  | nil => intro c hp; exact absurd hp (List.not_mem_nil row)
  | cons r rest ih =>
      intro c hp hn hm
      rw [List.foldl_cons]
      rcases List.mem_cons.mp hp with heq | hmem
      · subst heq
        exact hmono _ _ (rowsFold_le rest _) (hstep c hn hm)
      · have hle := processRow_le c r
        exact ih _ hmem (hle.1 ▸ hn) (hle.2.1 ▸ hm)

/-- A `correct` entry at a position of any processed row leaves that
`mustBe` slot filled in the final accumulator. -/
theorem buildConstraints_correct_isSome (fb : List (List LetterFeedback))
    (row : List LetterFeedback) (i : Nat) (f : LetterFeedback)
    (hrow : row ∈ fb) (hif : row[i]? = some f)
    (hst : f.status = LetterStatus.correct) (hi : i < 5) :
    ((buildConstraints fb).mustBe.getD i none).isSome := by
  refine rowsFold_of_mem 5 5 (fun c => ((c.mustBe.getD i none).isSome : Prop))
    (fun a b hle h => hle.2.2.2.2.2 i h) row ?_ fb initialConstraints hrow
    (by simp [initialConstraints]) (by simp [initialConstraints])
  intro c hn hm
  refine entryFold_of_mem row 5 5 (fun c => ((c.mustBe.getD i none).isSome : Prop))
    (fun a b hle h => hle.2.2.2.2.2 i h) (i, f) ?_ row.enum c
    (List.mk_mem_enum_iff_getElem?.mpr hif) hn hm
  intro c' hn' hm'
  rw [processEntry_correct_def row c' i f hst, getD_set_self _ _ _ _ (by omega)]
  rfl

/-- A `present` entry contributes its letter to `mustInclude`. -/
theorem buildConstraints_present_mustInclude (fb : List (List LetterFeedback))
    (row : List LetterFeedback) (i : Nat) (f : LetterFeedback)
    (hrow : row ∈ fb) (hif : row[i]? = some f)
    (hst : f.status = LetterStatus.present) :
    toLowerCode f.letter ∈ (buildConstraints fb).mustInclude := by
  refine rowsFold_of_mem 5 5 (fun c => toLowerCode f.letter ∈ c.mustInclude)
    (fun a b hle h => hle.2.2.2.1 _ h) row ?_ fb initialConstraints hrow
    (by simp [initialConstraints]) (by simp [initialConstraints])
  intro c hn hm
  refine entryFold_of_mem row 5 5 (fun c => toLowerCode f.letter ∈ c.mustInclude)
    (fun a b hle h => hle.2.2.2.1 _ h) (i, f) ?_ row.enum c
    (List.mk_mem_enum_iff_getElem?.mpr hif) hn hm
  intro c' hn' hm'
  rw [processEntry_present_def row c' i f hst]
  exact List.mem_cons_self _ _

/-- A `present` entry contributes its letter to the position's `cannotBe`
set (positions 0–4 only; rows are 5 long). -/
theorem buildConstraints_present_cannotBe (fb : List (List LetterFeedback))
    (row : List LetterFeedback) (i : Nat) (f : LetterFeedback)
    (hrow : row ∈ fb) (hif : row[i]? = some f)
    (hst : f.status = LetterStatus.present) (hi : i < 5) :
    toLowerCode f.letter ∈ (buildConstraints fb).cannotBe.getD i [] := by
  refine rowsFold_of_mem 5 5 (fun c => toLowerCode f.letter ∈ c.cannotBe.getD i [])
    (fun a b hle h => hle.2.2.2.2.1 i _ h) row ?_ fb initialConstraints hrow
    (by simp [initialConstraints]) (by simp [initialConstraints])
  intro c hn hm
  refine entryFold_of_mem row 5 5 (fun c => toLowerCode f.letter ∈ c.cannotBe.getD i [])
    (fun a b hle h => hle.2.2.2.2.1 i _ h) (i, f) ?_ row.enum c
    (List.mk_mem_enum_iff_getElem?.mpr hif) hn hm
  intro c' hn' hm'
  rw [processEntry_present_def row c' i f hst, getD_set_self _ _ _ _ (by omega)]
  exact List.mem_cons_self _ _

/-- An `absent` entry whose letter is correct/present elsewhere in the same
row is excluded only from its own position. -/
theorem buildConstraints_absent_cannotBe (fb : List (List LetterFeedback))
    (row : List LetterFeedback) (i : Nat) (f : LetterFeedback)
    (hrow : row ∈ fb) (hif : row[i]? = some f)
    (hst : f.status = LetterStatus.absent)
    (hfe : foundElsewhere row i (toLowerCode f.letter) = true) (hi : i < 5) :
    toLowerCode f.letter ∈ (buildConstraints fb).cannotBe.getD i [] := by
  refine rowsFold_of_mem 5 5 (fun c => toLowerCode f.letter ∈ c.cannotBe.getD i [])
    (fun a b hle h => hle.2.2.2.2.1 i _ h) row ?_ fb initialConstraints hrow
    (by simp [initialConstraints]) (by simp [initialConstraints])
  intro c hn hm
  refine entryFold_of_mem row 5 5 (fun c => toLowerCode f.letter ∈ c.cannotBe.getD i [])
    (fun a b hle h => hle.2.2.2.2.1 i _ h) (i, f) ?_ row.enum c
    (List.mk_mem_enum_iff_getElem?.mpr hif) hn hm
  intro c' hn' hm'
  rw [processEntry_absentElsewhere_def row c' i f hst hfe,
      getD_set_self _ _ _ _ (by omega)]
  exact List.mem_cons_self _ _

/-- An `absent` entry with no correct/present occurrence of the same letter
in its row contributes the letter to the global `mustNotInclude` set. -/
theorem buildConstraints_absent_global (fb : List (List LetterFeedback))
    (row : List LetterFeedback) (i : Nat) (f : LetterFeedback)
    (hrow : row ∈ fb) (hif : row[i]? = some f)
    (hst : f.status = LetterStatus.absent)
    (hfe : foundElsewhere row i (toLowerCode f.letter) = false) :
    toLowerCode f.letter ∈ (buildConstraints fb).mustNotInclude := by
  refine rowsFold_of_mem 5 5 (fun c => toLowerCode f.letter ∈ c.mustNotInclude)
    (fun a b hle h => hle.2.2.1 _ h) row ?_ fb initialConstraints hrow
    (by simp [initialConstraints]) (by simp [initialConstraints])
  intro c hn hm
  refine entryFold_of_mem row 5 5 (fun c => toLowerCode f.letter ∈ c.mustNotInclude)
    (fun a b hle h => hle.2.2.1 _ h) (i, f) ?_ row.enum c
    (List.mk_mem_enum_iff_getElem?.mpr hif) hn hm
  intro c' hn' hm'
  rw [processEntry_absentGlobal_def row c' i f hst hfe]
  exact List.mem_cons_self _ _

theorem processEntry_mustNot_src (row : List LetterFeedback) (c : HintConstraints)
    (i : Nat) (f : LetterFeedback) (x : Nat)
    (h : x ∈ (processEntry row c i f).mustNotInclude) :
    x ∈ c.mustNotInclude ∨
      (f.status = LetterStatus.absent ∧ x = toLowerCode f.letter ∧
       foundElsewhere row i (toLowerCode f.letter) = false) := by
  cases hf : f.status with
  | correct => rw [processEntry_correct_def row c i f hf] at h; exact Or.inl h
  | present => rw [processEntry_present_def row c i f hf] at h; exact Or.inl h
  | absent =>
      by_cases hfe : foundElsewhere row i (toLowerCode f.letter) = true
      · rw [processEntry_absentElsewhere_def row c i f hf hfe] at h
        exact Or.inl h
      · have hfe' : foundElsewhere row i (toLowerCode f.letter) = false := by
          simpa using hfe
        rw [processEntry_absentGlobal_def row c i f hf hfe'] at h
        rcases List.mem_cons.mp h with h1 | h1
        · exact Or.inr ⟨rfl, h1, hfe'⟩
        · exact Or.inl h1

theorem entryFold_mustNot_src (row : List LetterFeedback) :
    ∀ (l : List (Nat × LetterFeedback)) (c : HintConstraints) (x : Nat),
      x ∈ (l.foldl (fun c q => processEntry row c q.1 q.2) c).mustNotInclude →
      x ∈ c.mustNotInclude ∨ ∃ p ∈ l, p.2.status = LetterStatus.absent ∧
        x = toLowerCode p.2.letter ∧
        foundElsewhere row p.1 (toLowerCode p.2.letter) = false := by
  intro l
  induction l with
  | nil => intro c x h; exact Or.inl h
  | cons q rest ih =>
      intro c x h
      rw [List.foldl_cons] at h
      rcases ih _ x h with h1 | h1
      · rcases processEntry_mustNot_src row c q.1 q.2 x h1 with h2 | h2
        · exact Or.inl h2
        · exact Or.inr ⟨q, List.mem_cons_self _ _, h2⟩
      · obtain ⟨p, hp, hrest⟩ := h1
        exact Or.inr ⟨p, List.mem_cons_of_mem _ hp, hrest⟩

theorem buildConstraints_mustNot_src (fb : List (List LetterFeedback)) (x : Nat)
    (h : x ∈ (buildConstraints fb).mustNotInclude) :
    ∃ row ∈ fb, ∃ i f, row[i]? = some f ∧ f.status = LetterStatus.absent ∧
      x = toLowerCode f.letter ∧
      foundElsewhere row i (toLowerCode f.letter) = false := by
  suffices hgen : ∀ (rows : List (List LetterFeedback)) (c : HintConstraints) (x : Nat),
      x ∈ (rows.foldl processRow c).mustNotInclude →
      x ∈ c.mustNotInclude ∨ ∃ row ∈ rows, ∃ i f, row[i]? = some f ∧
        f.status = LetterStatus.absent ∧ x = toLowerCode f.letter ∧
        foundElsewhere row i (toLowerCode f.letter) = false by
    rcases hgen fb initialConstraints x h with h1 | h1
    · simp [initialConstraints] at h1
    · exact h1
  intro rows
  induction rows with
  | nil => intro c x h; exact Or.inl h
  | cons r rest ih =>
      intro c x h
      rw [List.foldl_cons] at h
      rcases ih _ x h with h1 | h1
      · unfold processRow at h1
        rcases entryFold_mustNot_src r r.enum c x h1 with h2 | h2
        · exact Or.inl h2
        · obtain ⟨p, hp, h3⟩ := h2
          obtain ⟨pi, pf⟩ := p
          exact Or.inr ⟨r, List.mem_cons_self _ _, pi, pf,
            List.mk_mem_enum_iff_getElem?.mp hp, h3⟩
      · obtain ⟨row, hrow, hrest2⟩ := h1
        exact Or.inr ⟨row, List.mem_cons_of_mem _ hrow, hrest2⟩

theorem processEntry_mustBe_src (row : List LetterFeedback) (c : HintConstraints)
    (i : Nat) (f : LetterFeedback) (j : Nat) (v : Nat)
    (h : (processEntry row c i f).mustBe.getD j none = some v) :
    c.mustBe.getD j none = some v ∨
      (f.status = LetterStatus.correct ∧ j = i ∧ v = toLowerCode f.letter) := by
  cases hf : f.status with
  | correct =>
      rw [processEntry_correct_def row c i f hf] at h
      by_cases hij : i = j
      · subst hij
        by_cases hlen : i < c.mustBe.length
        · rw [getD_set_self _ _ _ _ hlen] at h
          injection h with h2
          exact Or.inr ⟨rfl, rfl, h2.symm⟩
        · rw [List.set_eq_of_length_le (by omega)] at h
          exact Or.inl h
      · rw [getD_set_ne _ _ _ hij] at h
        exact Or.inl h
  | present => rw [processEntry_present_def row c i f hf] at h; exact Or.inl h
  | absent =>
      by_cases hfe : foundElsewhere row i (toLowerCode f.letter) = true
      · rw [processEntry_absentElsewhere_def row c i f hf hfe] at h
        exact Or.inl h
      · rw [processEntry_absentGlobal_def row c i f hf (by simpa using hfe)] at h
        exact Or.inl h

theorem entryFold_mustBe_src (row : List LetterFeedback) :
    ∀ (l : List (Nat × LetterFeedback)) (c : HintConstraints) (j v : Nat),
      (l.foldl (fun c q => processEntry row c q.1 q.2) c).mustBe.getD j none = some v →
      c.mustBe.getD j none = some v ∨ ∃ p ∈ l, p.1 = j ∧
        p.2.status = LetterStatus.correct ∧ v = toLowerCode p.2.letter := by
  intro l
  induction l with
  | nil => intro c j v h; exact Or.inl h
  | cons q rest ih =>
      intro c j v h
      rw [List.foldl_cons] at h
      rcases ih _ j v h with h1 | h1
      · rcases processEntry_mustBe_src row c q.1 q.2 j v h1 with h2 | h2
        · exact Or.inl h2
        · exact Or.inr ⟨q, List.mem_cons_self _ _, h2.2.1.symm, h2.1, h2.2.2⟩
      · obtain ⟨p, hp, hrest⟩ := h1
        exact Or.inr ⟨p, List.mem_cons_of_mem _ hp, hrest⟩

theorem buildConstraints_mustBe_src (fb : List (List LetterFeedback)) (j v : Nat)
    (h : (buildConstraints fb).mustBe.getD j none = some v) :
    ∃ row ∈ fb, ∃ f, row[j]? = some f ∧ f.status = LetterStatus.correct ∧
      v = toLowerCode f.letter := by
  suffices hgen : ∀ (rows : List (List LetterFeedback)) (c : HintConstraints) (j v : Nat),
      (rows.foldl processRow c).mustBe.getD j none = some v →
      c.mustBe.getD j none = some v ∨ ∃ row ∈ rows, ∃ f, row[j]? = some f ∧
        f.status = LetterStatus.correct ∧ v = toLowerCode f.letter by
    rcases hgen fb initialConstraints j v h with h1 | h1
    · have hnone : initialConstraints.mustBe.getD j none = none := by
        simp only [initialConstraints, List.getD_eq_getElem?_getD,
          List.getElem?_replicate]
        split <;> rfl
      rw [hnone] at h1
      cases h1
    · exact h1
  intro rows
  induction rows with
  | nil => intro c j v h; exact Or.inl h
  | cons r rest ih =>
      intro c j v h
      rw [List.foldl_cons] at h
      rcases ih _ j v h with h1 | h1
      · unfold processRow at h1
        rcases entryFold_mustBe_src r r.enum c j v h1 with h2 | h2
        · exact Or.inl h2
        · obtain ⟨p, hp, hpj, hst, hv⟩ := h2
          obtain ⟨pi, pf⟩ := p
          subst hpj
          exact Or.inr ⟨r, List.mem_cons_self _ _, pf,
            List.mk_mem_enum_iff_getElem?.mp hp, hst, hv⟩
      · obtain ⟨row, hrow, hrest2⟩ := h1
        exact Or.inr ⟨row, List.mem_cons_of_mem _ hrow, hrest2⟩

theorem foundElsewhere_iff (row : List LetterFeedback) (i letter : Nat) :
    foundElsewhere row i letter = true ↔
      ∃ j f, j ≠ i ∧ row[j]? = some f ∧ toLowerCode f.letter = letter ∧
        f.status ≠ LetterStatus.absent := by
  unfold foundElsewhere
  rw [List.any_eq_true]
  constructor
  · rintro ⟨p, hp, hdec⟩
    obtain ⟨pi, pf⟩ := p
    have hd := of_decide_eq_true hdec
    exact ⟨pi, pf, hd.1, List.mk_mem_enum_iff_getElem?.mp hp, hd.2.1, hd.2.2⟩
  · rintro ⟨j, f, hne, hjf, hl, hst⟩
    exact ⟨(j, f), List.mk_mem_enum_iff_getElem?.mpr hjf,
      decide_eq_true ⟨hne, hl, hst⟩⟩

theorem suggestHintWord_mem (solutions guesses : List (List Nat))
    (feedback : List (List LetterFeedback)) (pick : Nat) (w : List Nat)
    (h : suggestHintWord solutions guesses feedback pick = some w) :
    w ∈ solutions ∧ isValidCandidate (buildConstraints feedback) guesses w = true := by
  rw [suggestHintWord] at h
  set vw := solutions.filter (isValidCandidate (buildConstraints feedback) guesses)
    with hvw
  have hmem : w ∈ vw := by
    by_cases h0 : vw.length = 0
    · rw [if_pos h0] at h
      cases h
    · rw [if_neg h0] at h
      by_cases h1 : vw.length = 1
      · rw [if_pos h1] at h
        exact List.getElem?_mem h
      · rw [if_neg h1] at h
        exact List.getElem?_mem h
  rw [hvw] at hmem
  exact ⟨(List.mem_filter.mp hmem).1, (List.mem_filter.mp hmem).2⟩

theorem isValidCandidate_spec (c : HintConstraints) (guesses : List (List Nat))
    (w : List Nat) (h : isValidCandidate c guesses w = true) :
    (∀ i, i < 5 → ∀ m, c.mustBe.getD i none = some m → w[i]? = some m) ∧
    (∀ i, i < 5 → ∀ wi, w[i]? = some wi → wi ∉ c.cannotBe.getD i []) ∧
    (∀ ch ∈ c.mustInclude, ch ∈ w) ∧
    (∀ ch ∈ c.mustNotInclude, ch ∉ w) ∧
    w ∉ guesses := by
  unfold isValidCandidate at h
  rw [Bool.and_eq_true, Bool.and_eq_true, Bool.and_eq_true] at h
  obtain ⟨⟨⟨hpos, hinc⟩, hninc⟩, hguess⟩ := h
  unfold matchesPositional at hpos
  refine ⟨?_, ?_, ?_, ?_, ?_⟩
  · intro i hi m hm
    have hall := List.all_eq_true.mp hpos i (List.mem_range.mpr hi)
    rw [Bool.and_eq_true] at hall
    have h1 := hall.1
    rw [hm] at h1
    cases hwi : w[i]? with
    | none => rw [hwi] at h1; cases h1
    | some wi =>
        rw [hwi] at h1
        simp only at h1
        exact congrArg some (of_decide_eq_true h1)
  · intro i hi wi hwi hcontra
    have hall := List.all_eq_true.mp hpos i (List.mem_range.mpr hi)
    rw [Bool.and_eq_true] at hall
    have h2 := hall.2
    rw [hwi] at h2
    simp only [Bool.not_eq_true'] at h2
    rw [List.contains_eq_any_beq] at h2
    have h3 := List.any_eq_false.mp h2 wi hcontra
    simp at h3
  · intro ch hch
    have := List.all_eq_true.mp hinc ch hch
    simpa using this
  · intro ch hch
    have := List.all_eq_true.mp hninc ch hch
    simpa using this
  · intro hcontra
    simp only [Bool.not_eq_true'] at hguess
    rw [List.contains_eq_any_beq] at hguess
    have h3 := List.any_eq_false.mp hguess w hcontra
    simp at h3

/-- C5: a word returned by `suggestHintWord` is never one of the previous
guesses and satisfies every accumulated constraint: the fixed letter of
each `correct` entry at its position, containment of every `present`
letter, avoidance of each `present` letter at its tried position, and
avoidance of every letter in the global must-exclude set.  Feedback rows
are 5 long and position-consistent, as the evaluator produces them. -/
theorem suggestHintWord_constraints (solutions guesses : List (List Nat))
    (feedback : List (List LetterFeedback)) (pick : Nat) (w : List Nat)
    (hrows : ∀ row ∈ feedback, row.length = 5)
    (hcons : ∀ row ∈ feedback, ∀ row' ∈ feedback, ∀ (i : Nat) (f f' : LetterFeedback),
      row[i]? = some f → row'[i]? = some f' →
      f.status = LetterStatus.correct → f'.status = LetterStatus.correct →
      toLowerCode f.letter = toLowerCode f'.letter)
    (h : suggestHintWord solutions guesses feedback pick = some w) :
    w ∉ guesses ∧
    (∀ row ∈ feedback, ∀ (i : Nat) (f : LetterFeedback), row[i]? = some f →
      (f.status = LetterStatus.correct → w[i]? = some (toLowerCode f.letter)) ∧
      (f.status = LetterStatus.present →
        toLowerCode f.letter ∈ w ∧ w[i]? ≠ some (toLowerCode f.letter))) ∧
    (∀ ch ∈ (buildConstraints feedback).mustNotInclude, ch ∉ w) := by
  obtain ⟨hmemsol, hvalid⟩ := suggestHintWord_mem solutions guesses feedback pick w h
  obtain ⟨hpos, hcannot, hinc, hninc, hguess⟩ :=
    isValidCandidate_spec (buildConstraints feedback) guesses w hvalid
  refine ⟨hguess, ?_, hninc⟩
  intro row hrow i f hif
  have hi5 : i < 5 := by
    have hlen := hrows row hrow
    have := (List.getElem?_eq_some_iff.mp hif).1
    omega
  constructor
  · intro hst
    have hsome := buildConstraints_correct_isSome feedback row i f hrow hif hst hi5
    obtain ⟨v, hv⟩ := Option.isSome_iff_exists.mp hsome
    obtain ⟨row', hrow', f', hif', hst', hveq⟩ :=
      buildConstraints_mustBe_src feedback i v hv
    have heq : toLowerCode f'.letter = toLowerCode f.letter :=
      hcons row' hrow' row hrow i f' f hif' hif hst' hst
    have hvf : v = toLowerCode f.letter := by rw [hveq, heq]
    rw [← hvf]
    exact hpos i hi5 v hv
  · intro hst
    refine ⟨hinc _ (buildConstraints_present_mustInclude feedback row i f hrow hif hst),
      ?_⟩
    intro hcontra
    exact hcannot i hi5 (toLowerCode f.letter) hcontra
      (buildConstraints_present_cannotBe feedback row i f hrow hif hst hi5)

/-- Witness for C5 on an empty history: the single candidate is returned
and trivially meets every constraint. -/
theorem suggestHintWord_constraints_witness :
    suggestHintWord [ofString "crane"] [] [] 0 = some (ofString "crane") ∧
      (ofString "crane" ∉ ([] : List (List Nat)) ∧
       (∀ row ∈ ([] : List (List LetterFeedback)), ∀ (i : Nat) (f : LetterFeedback),
         row[i]? = some f →
         (f.status = LetterStatus.correct →
           (ofString "crane")[i]? = some (toLowerCode f.letter)) ∧
         (f.status = LetterStatus.present →
           toLowerCode f.letter ∈ ofString "crane" ∧
           (ofString "crane")[i]? ≠ some (toLowerCode f.letter))) ∧
       (∀ ch ∈ (buildConstraints []).mustNotInclude, ch ∉ ofString "crane")) :=
  ⟨by rfl,
   suggestHintWord_constraints [ofString "crane"] [] [] 0 (ofString "crane")
     (by simp) (by simp) (by rfl)⟩

/-- C7: a letter marked `absent` at a position lands in the global
must-exclude set exactly when no other position of the same row carries the
same lowercased letter with a non-`absent` status; when such another
occurrence exists, the letter is instead excluded from the specific
position where it was marked `absent`. -/
theorem buildConstraints_absent_disambiguation
    (feedback : List (List LetterFeedback))
    (hrows : ∀ row ∈ feedback, row.length = 5) :
    (∀ x, x ∈ (buildConstraints feedback).mustNotInclude ↔
      ∃ row ∈ feedback, ∃ (i : Nat) (f : LetterFeedback), row[i]? = some f ∧
        f.status = LetterStatus.absent ∧ x = toLowerCode f.letter ∧
        ¬∃ (j : Nat) (f' : LetterFeedback), j ≠ i ∧ row[j]? = some f' ∧
          toLowerCode f'.letter = toLowerCode f.letter ∧
          f'.status ≠ LetterStatus.absent) ∧
    (∀ row ∈ feedback, ∀ (i : Nat) (f : LetterFeedback), row[i]? = some f →
      f.status = LetterStatus.absent →
      (∃ (j : Nat) (f' : LetterFeedback), j ≠ i ∧ row[j]? = some f' ∧
        toLowerCode f'.letter = toLowerCode f.letter ∧
        f'.status ≠ LetterStatus.absent) →
      toLowerCode f.letter ∈ (buildConstraints feedback).cannotBe.getD i []) := by
  constructor
  · intro x
    constructor
    · intro hx
      obtain ⟨row, hrow, i, f, hif, hst, hxl, hfe⟩ :=
        buildConstraints_mustNot_src feedback x hx
      refine ⟨row, hrow, i, f, hif, hst, hxl, ?_⟩
      intro hex
      rw [← (foundElsewhere_iff row i (toLowerCode f.letter))] at hex
      rw [hfe] at hex
      cases hex
    · rintro ⟨row, hrow, i, f, hif, hst, hxl, hnex⟩
      have hfe : foundElsewhere row i (toLowerCode f.letter) = false := by
        rw [← Bool.not_eq_true, foundElsewhere_iff]
        exact hnex
      rw [hxl]
      exact buildConstraints_absent_global feedback row i f hrow hif hst hfe
  · intro row hrow i f hif hst hex
    have hi5 : i < 5 := by
      have hlen := hrows row hrow
      have := (List.getElem?_eq_some_iff.mp hif).1
      omega
    have hfe : foundElsewhere row i (toLowerCode f.letter) = true :=
      (foundElsewhere_iff row i (toLowerCode f.letter)).mpr hex
    exact buildConstraints_absent_cannotBe feedback row i f hrow hif hst hfe hi5

/-- Witness for C7 on a concrete one-row history: the row scores guess
`ALLEY` against secret `LLAMA`, whose fourth letter `E` is globally
excluded while the duplicated `L` absent at position 2 is only excluded
positionally. -/
theorem buildConstraints_absent_disambiguation_witness :
    (ofString "e").head! ∈
      (buildConstraints [[⟨65, LetterStatus.present⟩, ⟨76, LetterStatus.correct⟩,
        ⟨76, LetterStatus.present⟩, ⟨69, LetterStatus.absent⟩,
        ⟨89, LetterStatus.absent⟩]]).mustNotInclude := by
  have h := (buildConstraints_absent_disambiguation
    [[⟨65, LetterStatus.present⟩, ⟨76, LetterStatus.correct⟩,
      ⟨76, LetterStatus.present⟩, ⟨69, LetterStatus.absent⟩,
      ⟨89, LetterStatus.absent⟩]] (by simp)).1
  refine (h 101).mpr ?_
  refine ⟨_, List.mem_cons_self _ _, 3, ⟨69, LetterStatus.absent⟩, by rfl, rfl, by decide, ?_⟩
  rintro ⟨j, f', hne, hjf, hlet, hst⟩
  have hj5 : j < 5 := (List.getElem?_eq_some_iff.mp hjf).1
  interval_cases j <;> revert hjf <;> intro hjf <;>
    (try exact hne rfl) <;>
    (injection hjf with hf; rw [← hf] at hlet hst; revert hlet hst; decide)

/-! ### Lifecycle branch equations -/

theorem run_r1_some (solutions : List (List Nat)) (hourId now : List Nat)
    (o : StoreOracle) (doc : WordDocument) (h : o.r1 = some doc) :
    getOrCreateHourlyWord solutions hourId now o = decryptUpper doc.word hourId := by
  unfold getOrCreateHourlyWord
  rw [h]

theorem run_dict_none (solutions : List (List Nat)) (hourId now : List Nat)
    (o : StoreOracle) (h1 : o.r1 = none)
    (h2 : getDeterministicSolutionWord solutions hourId = none) :
    getOrCreateHourlyWord solutions hourId now o = LifecycleResult.dictionaryEmpty := by
  unfold getOrCreateHourlyWord
  rw [h1, h2]

theorem run_created (solutions : List (List Nat)) (hourId now : List Nat)
    (o : StoreOracle) (word : List Nat) (doc : WordDocument)
    (h1 : o.r1 = none) (h2 : getDeterministicSolutionWord solutions hourId = some word)
    (h3 : creatorDoc word hourId now = some doc) (h4 : o.rc = CreateResult.created) :
    getOrCreateHourlyWord solutions hourId now o = LifecycleResult.ok word := by
  unfold getOrCreateHourlyWord
  rw [h1, h2]
  dsimp only
  rw [h3, h4]

theorem run_threw_conflict (solutions : List (List Nat)) (hourId now : List Nat)
    (o : StoreOracle) (word : List Nat) (doc doc2 : WordDocument) (code : List Nat)
    (h1 : o.r1 = none) (h2 : getDeterministicSolutionWord solutions hourId = some word)
    (h3 : creatorDoc word hourId now = some doc)
    (h4 : o.rc = CreateResult.threw code) (hc : code = ofString "already-exists")
    (h5 : o.r2 = some doc2) :
    getOrCreateHourlyWord solutions hourId now o = decryptUpper doc2.word hourId := by
  unfold getOrCreateHourlyWord
  rw [h1, h2]
  dsimp only
  rw [h3, h4]
  dsimp only
  rw [if_pos hc, h5]

theorem run_threw_conflict_absent (solutions : List (List Nat)) (hourId now : List Nat)
    (o : StoreOracle) (word : List Nat) (doc : WordDocument) (code : List Nat)
    (h1 : o.r1 = none) (h2 : getDeterministicSolutionWord solutions hourId = some word)
    (h3 : creatorDoc word hourId now = some doc)
    (h4 : o.rc = CreateResult.threw code) (hc : code = ofString "already-exists")
    (h5 : o.r2 = none) :
    getOrCreateHourlyWord solutions hourId now o = LifecycleResult.storeError code := by
  unfold getOrCreateHourlyWord
  rw [h1, h2]
  dsimp only
  rw [h3, h4]
  dsimp only
  rw [if_pos hc, h5]

theorem run_threw_other (solutions : List (List Nat)) (hourId now : List Nat)
    (o : StoreOracle) (word : List Nat) (doc : WordDocument) (code : List Nat)
    (h1 : o.r1 = none) (h2 : getDeterministicSolutionWord solutions hourId = some word)
    (h3 : creatorDoc word hourId now = some doc)
    (h4 : o.rc = CreateResult.threw code) (hc : code ≠ ofString "already-exists") :
    getOrCreateHourlyWord solutions hourId now o = LifecycleResult.storeError code := by
  unfold getOrCreateHourlyWord
  rw [h1, h2]
  dsimp only
  rw [h3, h4]
  dsimp only
  rw [if_neg hc]

theorem run_conflictFalse (solutions : List (List Nat)) (hourId now : List Nat)
    (o : StoreOracle) (word : List Nat) (doc doc3 : WordDocument)
    (h1 : o.r1 = none) (h2 : getDeterministicSolutionWord solutions hourId = some word)
    (h3 : creatorDoc word hourId now = some doc)
    (h4 : o.rc = CreateResult.conflictFalse) (h5 : o.r3 = some doc3) :
    getOrCreateHourlyWord solutions hourId now o = decryptUpper doc3.word hourId := by
  unfold getOrCreateHourlyWord
  rw [h1, h2]
  dsimp only
  rw [h3, h4, h5]

theorem run_conflictFalse_absent (solutions : List (List Nat)) (hourId now : List Nat)
    (o : StoreOracle) (word : List Nat) (doc : WordDocument)
    (h1 : o.r1 = none) (h2 : getDeterministicSolutionWord solutions hourId = some word)
    (h3 : creatorDoc word hourId now = some doc)
    (h4 : o.rc = CreateResult.conflictFalse) (h5 : o.r3 = none) :
    getOrCreateHourlyWord solutions hourId now o = LifecycleResult.lifecycleError := by
  unfold getOrCreateHourlyWord
  rw [h1, h2]
  dsimp only
  rw [h3, h4, h5]

theorem run_enc_none (solutions : List (List Nat)) (hourId now : List Nat)
    (o : StoreOracle) (word : List Nat)
    (h1 : o.r1 = none) (h2 : getDeterministicSolutionWord solutions hourId = some word)
    (h3 : creatorDoc word hourId now = none) :
    getOrCreateHourlyWord solutions hourId now o = LifecycleResult.encodeError := by
  unfold getOrCreateHourlyWord
  rw [h1, h2]
  dsimp only
  rw [h3]

theorem ops_r1_some (solutions : List (List Nat)) (hourId now : List Nat)
    (o : StoreOracle) (doc : WordDocument) (h : o.r1 = some doc) :
    clientOps solutions hourId now o = [StoreOp.get (some doc)] := by
  unfold clientOps
  rw [h]

theorem ops_dict_none (solutions : List (List Nat)) (hourId now : List Nat)
    (o : StoreOracle) (h1 : o.r1 = none)
    (h2 : getDeterministicSolutionWord solutions hourId = none) :
    clientOps solutions hourId now o = [StoreOp.get none] := by
  unfold clientOps
  rw [h1, h2]

theorem ops_enc_none (solutions : List (List Nat)) (hourId now : List Nat)
    (o : StoreOracle) (word : List Nat)
    (h1 : o.r1 = none) (h2 : getDeterministicSolutionWord solutions hourId = some word)
    (h3 : creatorDoc word hourId now = none) :
    clientOps solutions hourId now o = [StoreOp.get none] := by
  unfold clientOps
  rw [h1, h2]
  dsimp only
  rw [h3]

theorem ops_created (solutions : List (List Nat)) (hourId now : List Nat)
    (o : StoreOracle) (word : List Nat) (doc : WordDocument)
    (h1 : o.r1 = none) (h2 : getDeterministicSolutionWord solutions hourId = some word)
    (h3 : creatorDoc word hourId now = some doc) (h4 : o.rc = CreateResult.created) :
    clientOps solutions hourId now o = [StoreOp.get none, StoreOp.create doc true] := by
  unfold clientOps
  rw [h1, h2]
  dsimp only
  rw [h3, h4]

theorem ops_conflictFalse (solutions : List (List Nat)) (hourId now : List Nat)
    (o : StoreOracle) (word : List Nat) (doc : WordDocument)
    (h1 : o.r1 = none) (h2 : getDeterministicSolutionWord solutions hourId = some word)
    (h3 : creatorDoc word hourId now = some doc)
    (h4 : o.rc = CreateResult.conflictFalse) :
    clientOps solutions hourId now o =
      [StoreOp.get none, StoreOp.create doc false, StoreOp.get o.r3] := by
  unfold clientOps
  rw [h1, h2]
  dsimp only
  rw [h3, h4]

theorem ops_threw_conflict (solutions : List (List Nat)) (hourId now : List Nat)
    (o : StoreOracle) (word : List Nat) (doc : WordDocument) (code : List Nat)
    (h1 : o.r1 = none) (h2 : getDeterministicSolutionWord solutions hourId = some word)
    (h3 : creatorDoc word hourId now = some doc)
    (h4 : o.rc = CreateResult.threw code) (hc : code = ofString "already-exists") :
    clientOps solutions hourId now o =
      [StoreOp.get none, StoreOp.create doc o.rcWrote, StoreOp.get o.r2] := by
  unfold clientOps
  rw [h1, h2]
  dsimp only
  rw [h3, h4]
  dsimp only
  rw [if_pos hc]

theorem ops_threw_other (solutions : List (List Nat)) (hourId now : List Nat)
    (o : StoreOracle) (word : List Nat) (doc : WordDocument) (code : List Nat)
    (h1 : o.r1 = none) (h2 : getDeterministicSolutionWord solutions hourId = some word)
    (h3 : creatorDoc word hourId now = some doc)
    (h4 : o.rc = CreateResult.threw code) (hc : code ≠ ofString "already-exists") :
    clientOps solutions hourId now o =
      [StoreOp.get none, StoreOp.create doc o.rcWrote] := by
  unfold clientOps
  rw [h1, h2]
  dsimp only
  rw [h3, h4]
  dsimp only
  rw [if_neg hc]

/-! ### Uppercase invariant (C9) -/

theorem toUpperCode_idem (c : Nat) : toUpperCode (toUpperCode c) = toUpperCode c := by
  unfold toUpperCode
  split_ifs <;> omega

theorem toUpperStr_idem (s : List Nat) : toUpperStr (toUpperStr s) = toUpperStr s := by
  unfold toUpperStr
  rw [List.map_map]
  have hfun : (toUpperCode ∘ toUpperCode) = toUpperCode := funext toUpperCode_idem
  rw [hfun]

theorem decryptUpper_ok (payload hourId w : List Nat)
    (h : decryptUpper payload hourId = LifecycleResult.ok w) :
    ∃ x, w = toUpperStr x := by
  unfold decryptUpper at h
  cases hd : decryptWord payload hourId with
  | none => rw [hd] at h; cases h
  | some x => rw [hd] at h; injection h with h2; exact ⟨x, h2.symm⟩

theorem getDeterministicSolutionWord_shape (solutions : List (List Nat))
    (seed w : List Nat) (h : getDeterministicSolutionWord solutions seed = some w) :
    ∃ s ∈ solutions, w = toUpperStr s := by
  unfold getDeterministicSolutionWord at h
  cases hs : solutions[(simpleStringHash seed).natAbs % solutions.length]? with
  | none => rw [hs] at h; cases h
  | some s =>
      rw [hs] at h
      injection h with h2
      exact ⟨s, List.getElem?_mem hs, h2.symm⟩

/-- C9: every success path of the lifecycle returns a word fixed by
uppercasing — the creator branch returns the uppercased derived word and
every read branch uppercases the decrypted payload. -/
theorem getOrCreateHourlyWord_uppercase (solutions : List (List Nat))
    (hourId now : List Nat) (o : StoreOracle) (w : List Nat)
    (h : getOrCreateHourlyWord solutions hourId now o = LifecycleResult.ok w) :
    toUpperStr w = w := by
  have hshape : ∃ x, w = toUpperStr x := by
    cases h1 : o.r1 with
    | some doc =>
        rw [run_r1_some solutions hourId now o doc h1] at h
        exact decryptUpper_ok _ _ _ h
    | none =>
        cases h2 : getDeterministicSolutionWord solutions hourId with
        | none => rw [run_dict_none solutions hourId now o h1 h2] at h; cases h
        | some word =>
            cases h3 : creatorDoc word hourId now with
            | none => rw [run_enc_none solutions hourId now o word h1 h2 h3] at h; cases h
            | some doc =>
                cases h4 : o.rc with
                | created =>
                    rw [run_created solutions hourId now o word doc h1 h2 h3 h4] at h
                    injection h with h5
                    obtain ⟨s, _, hs⟩ :=
                      getDeterministicSolutionWord_shape solutions hourId word h2
                    exact ⟨s, by rw [← h5, hs]⟩
                | threw code =>
                    by_cases hc : code = ofString "already-exists"
                    · cases h5 : o.r2 with
                      | some doc2 =>
                          rw [run_threw_conflict solutions hourId now o word doc doc2
                            code h1 h2 h3 h4 hc h5] at h
                          exact decryptUpper_ok _ _ _ h
                      | none =>
                          rw [run_threw_conflict_absent solutions hourId now o word doc
                            code h1 h2 h3 h4 hc h5] at h
                          cases h
                    · rw [run_threw_other solutions hourId now o word doc code
                        h1 h2 h3 h4 hc] at h
                      cases h
                | conflictFalse =>
                    cases h5 : o.r3 with
                    | some doc3 =>
                        rw [run_conflictFalse solutions hourId now o word doc doc3
                          h1 h2 h3 h4 h5] at h
                        exact decryptUpper_ok _ _ _ h
                    | none =>
                        rw [run_conflictFalse_absent solutions hourId now o word doc
                          h1 h2 h3 h4 h5] at h
                        cases h
  obtain ⟨x, hx⟩ := hshape
  rw [hx, toUpperStr_idem]

set_option maxRecDepth 8192 in
/-- Witness for C9: the creator run for a one-word dictionary returns
`APPLE`, which uppercases to itself. -/
theorem getOrCreateHourlyWord_uppercase_witness :
    toUpperStr (ofString "APPLE") = ofString "APPLE" :=
  getOrCreateHourlyWord_uppercase [ofString "apple"] (ofString "2024010100")
    (ofString "2024-01-01T00:00:00.000Z")
    ⟨none, CreateResult.created, true, none, none⟩ (ofString "APPLE") (by rfl)

/-! ### Store-trace lemmas (C1) -/

theorem execStore_some (d : WordDocument) :
    ∀ tr : List StoreOp, execStore (some d) tr = some d := by
  intro tr
  induction tr with
  | nil => rfl
  | cons op rest ih =>
      cases op with
      | get r => rw [execStore]; exact ih
      | create d' r => rw [execStore]; exact ih

theorem execStore_append (tr1 : List StoreOp) :
    ∀ (s : Option WordDocument) (tr2 : List StoreOp),
      execStore s (tr1 ++ tr2) = execStore (execStore s tr1) tr2 := by
  induction tr1 with
  | nil =>
      intro s tr2
      cases s
      · rfl
      · rfl
  | cons op rest ih =>
      intro s tr2
      cases op with
      | get r =>
          rw [List.cons_append, execStore, execStore, ih]
      | create d r =>
          cases s with
          | none => rw [List.cons_append, execStore, execStore, ih]
          | some d0 => rw [List.cons_append, execStore, execStore, ih]

/-- In a consistent trace whose created documents all satisfy `Q`, every
successful lookup returns either nothing or a document satisfying `Q`. -/
theorem consistent_gets (Q : WordDocument → Prop) :
    ∀ (tr : List StoreOp) (s : Option WordDocument),
      consistentFrom s tr = true →
      (∀ d b, StoreOp.create d b ∈ tr → Q d) →
      (s = none ∨ ∃ d, s = some d ∧ Q d) →
      ∀ r, StoreOp.get r ∈ tr → r = none ∨ ∃ d, r = some d ∧ Q d := by
  intro tr
  induction tr with
  | nil => intro s _ _ _ r hr; exact absurd hr (List.not_mem_nil _)
  | cons op rest ih =>
      intro s hcons hQ hs r hr
      cases op with
      | get r0 =>
          cases s with
          | none =>
              rw [consistentFrom, Bool.and_eq_true] at hcons
              have hr0 : r0 = none := of_decide_eq_true hcons.1
              rcases List.mem_cons.mp hr with heq | hmem
              · injection heq with h2
                rw [h2, hr0]
                exact hs
              · exact ih none hcons.2
                  (fun d b hd => hQ d b (List.mem_cons_of_mem _ hd)) hs r hmem
          | some d0 =>
              rw [consistentFrom, Bool.and_eq_true] at hcons
              have hr0 : r0 = some d0 := of_decide_eq_true hcons.1
              rcases List.mem_cons.mp hr with heq | hmem
              · injection heq with h2
                rw [h2, hr0]
                exact hs
              · exact ih (some d0) hcons.2
                  (fun d b hd => hQ d b (List.mem_cons_of_mem _ hd)) hs r hmem
      | create d b =>
          cases s with
          | none =>
              rw [consistentFrom, Bool.and_eq_true] at hcons
              have hQd : Q d := hQ d b (List.mem_cons_self _ _)
              rcases List.mem_cons.mp hr with heq | hmem
              · cases heq
              · exact ih (some d) hcons.2
                  (fun d' b' hd => hQ d' b' (List.mem_cons_of_mem _ hd))
                  (Or.inr ⟨d, rfl, hQd⟩) r hmem
          | some d0 =>
              rw [consistentFrom, Bool.and_eq_true] at hcons
              rcases List.mem_cons.mp hr with heq | hmem
              · cases heq
              · exact ih (some d0) hcons.2
                  (fun d' b' hd => hQ d' b' (List.mem_cons_of_mem _ hd)) hs r hmem

/-- Every create any client issues carries the canonical document for the
bucket: its payload is the encryption of the deterministically derived
word. -/
theorem clientOps_create_canonical (solutions : List (List Nat))
    (hourId now : List Nat) (o : StoreOracle) (d : WordDocument) (b : Bool)
    (h : StoreOp.create d b ∈ clientOps solutions hourId now o) :
    canonicalDoc solutions hourId d := by
  cases h1 : o.r1 with
  | some doc => rw [ops_r1_some solutions hourId now o doc h1] at h; simp at h
  | none =>
      cases h2 : getDeterministicSolutionWord solutions hourId with
      | none => rw [ops_dict_none solutions hourId now o h1 h2] at h; simp at h
      | some word =>
          cases h3 : creatorDoc word hourId now with
          | none => rw [ops_enc_none solutions hourId now o word h1 h2 h3] at h; simp at h
          | some doc =>
              have hdoc : canonicalDoc solutions hourId doc := by
                unfold creatorDoc at h3
                cases he : encryptWord word hourId with
                | none => rw [he] at h3; cases h3
                | some enc =>
                    rw [he] at h3
                    simp only [Option.map_some'] at h3
                    injection h3 with h3
                    exact ⟨word, h2, by rw [he, ← h3]⟩
              cases h4 : o.rc with
              | created =>
                  rw [ops_created solutions hourId now o word doc h1 h2 h3 h4] at h
                  simp at h
                  rw [h.1]
                  exact hdoc
              | conflictFalse =>
                  rw [ops_conflictFalse solutions hourId now o word doc h1 h2 h3 h4] at h
                  simp at h
                  rw [h.1]
                  exact hdoc
              | threw code =>
                  by_cases hc : code = ofString "already-exists"
                  · rw [ops_threw_conflict solutions hourId now o word doc code
                      h1 h2 h3 h4 hc] at h
                    simp at h
                    rw [h.1]
                    exact hdoc
                  · rw [ops_threw_other solutions hourId now o word doc code
                      h1 h2 h3 h4 hc] at h
                    simp at h
                    rw [h.1]
                    exact hdoc

theorem toLowerStr_toUpperStr (s : List Nat) (h : ∀ c ∈ s, isLowerAlpha c) :
    toLowerStr (toUpperStr s) = s := by
  unfold toLowerStr toUpperStr
  rw [List.map_map]
  conv_rhs => rw [← List.map_id s]
  apply List.map_congr_left
  intro a ha
  have hla := h a ha
  unfold isLowerAlpha at hla
  simp only [Function.comp_apply, id_eq]
  unfold toLowerCode toUpperCode
  split_ifs <;> omega

/-- Reading a canonical document decodes and uppercases back to the
derived word. -/
theorem decryptUpper_canonical (solutions : List (List Nat)) (hourId : List Nat)
    (d : WordDocument) (halpha : ∀ s ∈ solutions, ∀ c ∈ s, isLowerAlpha c)
    (hd : canonicalDoc solutions hourId d) :
    ∃ dw, getDeterministicSolutionWord solutions hourId = some dw ∧
      decryptUpper d.word hourId = LifecycleResult.ok dw := by
  obtain ⟨dw, hdw, henc⟩ := hd
  obtain ⟨s, hsmem, hshape⟩ := getDeterministicSolutionWord_shape _ _ _ hdw
  have hsalpha : ∀ c ∈ s, isLowerAlpha c := halpha s hsmem
  have hdwalpha : ∀ c ∈ dw, isAsciiAlpha c := by
    rw [hshape]
    intro c hc
    obtain ⟨a, ha, rfl⟩ := List.mem_map.mp hc
    have hla := hsalpha a ha
    unfold isLowerAlpha at hla
    unfold isAsciiAlpha toUpperCode
    split_ifs
    all_goals omega
  obtain ⟨payload, hp1, hp2⟩ := encryptWord_decryptWord dw hourId hdwalpha
  have hpd : payload = d.word := by
    rw [hp1] at henc
    injection henc
  refine ⟨dw, hdw, ?_⟩
  unfold decryptUpper
  rw [← hpd, hp2]
  dsimp only
  have hfix : toUpperStr (toLowerStr dw) = dw := by
    rw [hshape, toLowerStr_toUpperStr s hsalpha]
  rw [hfix]

/-- A successful run whose lookups only ever see nothing or canonical
documents returns the derived word. -/
theorem run_ok_canonical (solutions : List (List Nat)) (hourId now : List Nat)
    (o : StoreOracle) (w : List Nat)
    (halpha : ∀ s ∈ solutions, ∀ c ∈ s, isLowerAlpha c)
    (hgood : ∀ r, StoreOp.get r ∈ clientOps solutions hourId now o →
      r = none ∨ ∃ d, r = some d ∧ canonicalDoc solutions hourId d)
    (hok : getOrCreateHourlyWord solutions hourId now o = LifecycleResult.ok w) :
    getDeterministicSolutionWord solutions hourId = some w := by
  cases h1 : o.r1 with
  | some doc =>
      rw [run_r1_some solutions hourId now o doc h1] at hok
      have hmem : StoreOp.get (some doc) ∈ clientOps solutions hourId now o := by
        rw [ops_r1_some solutions hourId now o doc h1]
        exact List.mem_cons_self _ _
      rcases hgood (some doc) hmem with hnone | ⟨d, hd, hcan⟩
      · cases hnone
      · injection hd with hd
        rw [← hd] at hcan
        obtain ⟨dw, hdw, hdec⟩ := decryptUpper_canonical solutions hourId doc halpha hcan
        rw [hdec] at hok
        injection hok with hok
        rw [← hok]
        exact hdw
  | none =>
      cases h2 : getDeterministicSolutionWord solutions hourId with
      | none => rw [run_dict_none solutions hourId now o h1 h2] at hok; cases hok
      | some word =>
          cases h3 : creatorDoc word hourId now with
          | none => rw [run_enc_none solutions hourId now o word h1 h2 h3] at hok; cases hok
          | some doc =>
              cases h4 : o.rc with
              | created =>
                  rw [run_created solutions hourId now o word doc h1 h2 h3 h4] at hok
                  injection hok with hok
                  rw [hok]
              | threw code =>
                  by_cases hc : code = ofString "already-exists"
                  · cases h5 : o.r2 with
                    | some doc2 =>
                        rw [run_threw_conflict solutions hourId now o word doc doc2
                          code h1 h2 h3 h4 hc h5] at hok
                        have hmem : StoreOp.get (some doc2) ∈
                            clientOps solutions hourId now o := by
                          rw [ops_threw_conflict solutions hourId now o word doc code
                            h1 h2 h3 h4 hc, h5]
                          simp
                        rcases hgood (some doc2) hmem with hnone | ⟨d, hd, hcan⟩
                        · cases hnone
                        · injection hd with hd
                          rw [← hd] at hcan
                          obtain ⟨dw, hdw, hdec⟩ :=
                            decryptUpper_canonical solutions hourId doc2 halpha hcan
                          rw [hdec] at hok
                          injection hok with hok
                          rw [← hok, ← h2]
                          exact hdw
                    | none =>
                        rw [run_threw_conflict_absent solutions hourId now o word doc
                          code h1 h2 h3 h4 hc h5] at hok
                        cases hok
                  · rw [run_threw_other solutions hourId now o word doc code
                      h1 h2 h3 h4 hc] at hok
                    cases hok
              | conflictFalse =>
                  cases h5 : o.r3 with
                  | some doc3 =>
                      rw [run_conflictFalse solutions hourId now o word doc doc3
                        h1 h2 h3 h4 h5] at hok
                      have hmem : StoreOp.get (some doc3) ∈
                          clientOps solutions hourId now o := by
                        rw [ops_conflictFalse solutions hourId now o word doc
                          h1 h2 h3 h4, h5]
                        simp
                      rcases hgood (some doc3) hmem with hnone | ⟨d, hd, hcan⟩
                      · cases hnone
                      · injection hd with hd
                        rw [← hd] at hcan
                        obtain ⟨dw, hdw, hdec⟩ :=
                          decryptUpper_canonical solutions hourId doc3 halpha hcan
                        rw [hdec] at hok
                        injection hok with hok
                        rw [← hok, ← h2]
                        exact hdw
                  | none =>
                      rw [run_conflictFalse_absent solutions hourId now o word doc
                        h1 h2 h3 h4 h5] at hok
                      cases hok

/-- C1: over an initially-empty store with atomic create-if-absent, for any
interleaved consistent trace of lifecycle clients for one bucket, every
client run that terminates successfully returns the deterministically
derived word for the bucket — hence all successful runs agree — and the
record, once created, is never overwritten by the rest of the trace. -/
theorem getOrCreateHourlyWord_agreement (solutions : List (List Nat))
    (hourId : List Nat)
    (halpha : ∀ s ∈ solutions, ∀ c ∈ s, isLowerAlpha c)
    (clients : List (StoreOracle × List Nat)) (tr : List StoreOp)
    (htr : consistentFrom none tr = true)
    (hops : ∀ op ∈ tr, ∃ p ∈ clients, op ∈ clientOps solutions hourId p.2 p.1)
    (hcli : ∀ p ∈ clients, (clientOps solutions hourId p.2 p.1).Sublist tr) :
    (∀ p ∈ clients, ∀ w,
      getOrCreateHourlyWord solutions hourId p.2 p.1 = LifecycleResult.ok w →
      getDeterministicSolutionWord solutions hourId = some w) ∧
    (∀ (d : WordDocument) (tr1 tr2 : List StoreOp), tr = tr1 ++ tr2 →
      execStore none tr1 = some d → execStore none tr = some d) := by
  have hQ : ∀ d b, StoreOp.create d b ∈ tr → canonicalDoc solutions hourId d := by
    intro d b hd
    obtain ⟨p, hp, hmem⟩ := hops _ hd
    exact clientOps_create_canonical solutions hourId p.2 p.1 d b hmem
  constructor
  · intro p hp w hok
    apply run_ok_canonical solutions hourId p.2 p.1 w halpha ?_ hok
    intro r hr
    have hrtr : StoreOp.get r ∈ tr := (hcli p hp).subset hr
    exact consistent_gets (canonicalDoc solutions hourId) tr none htr hQ
      (Or.inl rfl) r hrtr
  · intro d tr1 tr2 htr12 hexec
    rw [htr12, execStore_append, hexec, execStore_some]

set_option maxRecDepth 8192 in
/-- Witness for C1: a concrete one-client creator execution over the empty
store; its successful result is the derived word `APPLE`. -/
theorem getOrCreateHourlyWord_agreement_witness :
    getDeterministicSolutionWord [ofString "apple"] (ofString "2024010100") =
      some (ofString "APPLE") :=
  (getOrCreateHourlyWord_agreement [ofString "apple"] (ofString "2024010100")
    (by decide)
    [(⟨none, CreateResult.created, true, none, none⟩,
      ofString "2024-01-01T00:00:00.000Z")]
    (clientOps [ofString "apple"] (ofString "2024010100")
      (ofString "2024-01-01T00:00:00.000Z")
      ⟨none, CreateResult.created, true, none, none⟩)
    (by decide)
    (by
      intro op hop
      exact ⟨_, List.mem_cons_self _ _, hop⟩)
    (by
      intro p hp
      rcases List.mem_cons.mp hp with heq | hmem
      · rw [heq]
      · cases hmem)).1
    _ (List.mem_cons_self _ _) (ofString "APPLE") (by rfl)

set_option maxRecDepth 8192 in
/-- C6 at the failing input: when the create attempt throws a non-conflict
error code, the run propagates that error immediately — the record present
in the store (and decodable to the canonical word) is not re-read.  The
claimed defensive final read happens only on the `false` create result. -/
theorem getOrCreateHourlyWord_nonconflict_propagates :
    (creatorDoc (ofString "APPLE") (ofString "2024010100")
      (ofString "2024-01-01T00:00:00.000Z")).isSome = true ∧
    getOrCreateHourlyWord [ofString "apple"] (ofString "2024010100")
      (ofString "2024-01-01T00:00:00.000Z")
      ⟨none, CreateResult.threw (ofString "permission-denied"), true, none,
       creatorDoc (ofString "APPLE") (ofString "2024010100")
         (ofString "2024-01-01T00:00:00.000Z")⟩ =
      LifecycleResult.storeError (ofString "permission-denied") ∧
    (creatorDoc (ofString "APPLE") (ofString "2024010100")
      (ofString "2024-01-01T00:00:00.000Z")).map
        (fun d => decryptUpper d.word (ofString "2024010100")) =
      some (LifecycleResult.ok (ofString "APPLE")) :=
  ⟨by rfl, by rfl, by rfl⟩

/-! ### Validation lemmas (C10) -/

theorem isBase64Code_enc64 (v : Nat) : isBase64Code (enc64 v) = true := by
  unfold enc64 isBase64Code
  split_ifs <;> (apply decide_eq_true; omega)

theorem b64Tail_of_matches (l : List Nat) (h : matchesBase64Pattern l = true) :
    b64Tail l = true := by
  cases l with
  | nil => cases h
  | cons c rest =>
      rw [matchesBase64Pattern, Bool.and_eq_true] at h
      rw [b64Tail, if_pos h.1]
      exact h.2

theorem matchesBase64Pattern_btoaChunks :
    ∀ bs : List Nat, bs ≠ [] → matchesBase64Pattern (btoaChunks bs) = true := by
  intro bs
  induction bs using btoaChunks.induct with
  | case1 => intro h; exact absurd rfl h
  | case2 b0 =>
      intro h
      simp [btoaChunks, matchesBase64Pattern, b64Tail, isBase64Code_enc64]
  | case3 b0 b1 =>
      intro h
      simp [btoaChunks, matchesBase64Pattern, b64Tail, isBase64Code_enc64]
  | case4 b0 b1 b2 rest ih =>
      intro h
      rw [btoaChunks, matchesBase64Pattern, isBase64Code_enc64, Bool.true_and]
      rw [b64Tail, if_pos (isBase64Code_enc64 _)]
      rw [b64Tail, if_pos (isBase64Code_enc64 _)]
      rw [b64Tail, if_pos (isBase64Code_enc64 _)]
      by_cases hr : rest = []
      · rw [hr]; rfl
      · exact b64Tail_of_matches _ (ih hr)

theorem btoaChunks_ne_nil (bs : List Nat) (h : bs ≠ []) : btoaChunks bs ≠ [] := by
  cases bs with
  | nil => exact absurd rfl h
  | cons b0 rest =>
      cases rest with
      | nil => simp [btoaChunks]
      | cons b1 rest2 =>
          cases rest2 with
          | nil => simp [btoaChunks]
          | cons b2 rest3 => simp [btoaChunks]

theorem jsDateParses_length (s : List Nat) (h : jsDateParses s = true) :
    s.length = 24 := by
  unfold jsDateParses at h
  rw [Bool.and_eq_true] at h
  exact of_decide_eq_true h.1

theorem isEmpty_eq_false_of_ne {α : Type} (l : List α) (h : l ≠ []) :
    l.isEmpty = false := by
  cases l with
  | nil => exact absurd rfl h
  | cons a t => rfl

theorem cipher_bytes_lt (word hourId : List Nat) (h : ∀ c ∈ word, isAsciiAlpha c) :
    ∀ c ∈ caesarCipher (toLowerStr word) (generateEncryptionKey hourId), c < 256 := by
  intro c hc
  obtain ⟨a, ha, rfl⟩ := List.mem_map.mp hc
  apply caesarShiftChar_lt_256
  obtain ⟨b, hb, rfl⟩ := List.mem_map.mp ha
  have hb2 := h b hb
  unfold isAsciiAlpha at hb2
  unfold toLowerCode
  split_ifs <;> omega

/-- C10 (amended to nonempty words): the WordDocument the creator path
builds from a nonempty ASCII-alphabetic word, any bucket id and a
parseable ISO-8601 timestamp passes `validateWordDocument`; in particular
the encrypted payload matches the Base64 alphabet pattern. -/
theorem creatorDoc_validates (word hourId createdAt : List Nat)
    (hne : word ≠ []) (halpha : ∀ c ∈ word, isAsciiAlpha c)
    (hdate : jsDateParses createdAt = true) :
    ∃ d, creatorDoc word hourId createdAt = some d ∧
      matchesBase64Pattern d.word = true ∧ validateWordDocument d = true := by
  set k := generateEncryptionKey hourId with hk
  have hbytes := cipher_bytes_lt word hourId halpha
  rw [← hk] at hbytes
  have henc : encryptWord word hourId =
      some (btoaChunks (caesarCipher (toLowerStr word) k)) := by
    unfold encryptWord btoa
    rw [← hk, if_pos]
    rw [List.all_eq_true]
    intro b hb
    exact decide_eq_true (hbytes b hb)
  have hcipne : caesarCipher (toLowerStr word) k ≠ [] := by
    intro hcontra
    apply hne
    simpa [caesarCipher, toLowerStr, List.map_eq_nil_iff] using hcontra
  have hdne : createdAt ≠ [] := by
    intro hcontra
    have := jsDateParses_length createdAt hdate
    rw [hcontra] at this
    cases this
  refine ⟨⟨btoaChunks (caesarCipher (toLowerStr word) k), createdAt,
    ofString "client", ofString "v1", some (generateWordHash word hourId)⟩, ?_, ?_, ?_⟩
  · unfold creatorDoc
    rw [henc]
    rfl
  · exact matchesBase64Pattern_btoaChunks _ hcipne
  · unfold validateWordDocument
    simp only [Bool.and_eq_true, Bool.not_eq_true']
    refine ⟨⟨⟨⟨⟨?_, ?_⟩, ?_⟩, ?_⟩, ?_⟩, ?_⟩
    · exact isEmpty_eq_false_of_ne _ (btoaChunks_ne_nil _ hcipne)
    · exact isEmpty_eq_false_of_ne _ hdne
    · rfl
    · rfl
    · exact matchesBase64Pattern_btoaChunks _ hcipne
    · exact hdate

set_option maxRecDepth 8192 in
/-- Witness for C10 at `APPLE`, hour id `2024010100` and a concrete
ISO timestamp. -/
theorem creatorDoc_validates_witness :
    ∃ d, creatorDoc (ofString "APPLE") (ofString "2024010100")
        (ofString "2024-01-01T00:00:00.000Z") = some d ∧
      matchesBase64Pattern d.word = true ∧ validateWordDocument d = true :=
  creatorDoc_validates (ofString "APPLE") (ofString "2024010100")
    (ofString "2024-01-01T00:00:00.000Z") (by decide) (by decide) (by decide)

set_option maxRecDepth 8192 in
/-- Counterexample to C10 as stated: the empty word consists only of ASCII
letters vacuously, yet its creator document (payload `btoa("") = ""`) fails
validation even with a parseable timestamp. -/
theorem creatorDoc_empty_word_invalid :
    jsDateParses (ofString "2024-01-01T00:00:00.000Z") = true ∧
    (creatorDoc [] (ofString "2024010100")
      (ofString "2024-01-01T00:00:00.000Z")).map validateWordDocument =
      some false :=
  ⟨by decide, by rfl⟩

end Mintle
